import Mathlib

/-!
Verification of the msys2-web package index core (src/main.py) against its
natural-language specification.  The Python code is shallowly embedded:
strings are `List Char` (wrapped in `String` at the API boundary), Python
integers are `Nat`/`Int`, fallible code returns `Option`, and the mutable
application state is explicit state passing.  Character classification
(`str.isdigit`, `str.isalpha`) is modelled over the ASCII range, which is the
range exercised by every concrete input below.
-/

set_option maxRecDepth 4000

/-! ## Basic string primitives (Python semantics) -/

/-- Python `cmp` over naturals, as defined inside `vercmp`:
`(a > b) - (a < b)`. -/
def cmpN (a b : Nat) : Int :=
  if a > b then 1 else if a < b then -1 else 0

/-- Lexicographic comparison of character lists by codepoint, the Python
string comparison used for alpha runs. -/
def cmpL : List Char → List Char → Int
  | [], [] => 0
  | [], _ :: _ => -1
  | _ :: _, [] => 1
  | a :: as, b :: bs =>
    if a.toNat > b.toNat then 1
    else if a.toNat < b.toNat then -1
    else cmpL as bs

/-- Python `int()` on a run of digit characters. -/
def str_to_int (l : List Char) : Nat :=
  l.foldl (fun acc c => acc * 10 + (c.toNat - 48)) 0

/-- Split at the first occurrence of `sep`: `some (before, after)`,
or `none` when `sep` does not occur. -/
def splitFirst (sep : Char) : List Char → Option (List Char × List Char)
  | [] => none
  | c :: rest =>
    if c = sep then some ([], rest)
    else
      match splitFirst sep rest with
      | none => none
      | some (a, b) => some (c :: a, b)

/-- Split at the last occurrence of `sep` (Python `rsplit(sep, 1)`). -/
def splitLast (sep : Char) (l : List Char) : Option (List Char × List Char) :=
  match splitFirst sep l.reverse with
  | none => none
  | some (a, b) => some (b.reverse, a.reverse)

/-! ## The version comparator `vercmp` (src/main.py lines 787-889) -/

/-- Character classes used by `vercmp.get_type`. -/
inductive RT
  | digit
  | alpha
  | other
deriving DecidableEq, Repr

/-- `get_type` on a single character: digit, alpha, or separator. -/
def get_type (c : Char) : RT :=
  if c.isDigit then RT.digit else if c.isAlpha then RT.alpha else RT.other

/-- `get_type` applied to a whole run, following Python `str.isdigit` and
`str.isalpha` semantics on strings (all characters, nonempty). -/
def get_type_run (l : List Char) : RT :=
  if !l.isEmpty && l.all Char.isDigit then RT.digit
  else if !l.isEmpty && l.all Char.isAlpha then RT.alpha
  else RT.other

/-- The scanning loop of `vercmp.parse`: `seps` counts separators seen so
far, `current` is the run being accumulated (in order). -/
def parseGo : List Char → Nat → List Char → List (Nat × Option (List Char))
  | [], seps, current =>
    match current with
    | [] => [(seps, none)]
    | c0 :: cs => [(seps, some (c0 :: cs))]
  | c :: rest, seps, current =>
    match current with
    | [] =>
      if get_type c = RT.other then parseGo rest (seps + 1) []
      else parseGo rest seps [c]
    | c0 :: cs =>
      if get_type c = RT.other then
        (seps, some (c0 :: cs)) :: parseGo rest (seps + 1) []
      else if get_type c = get_type c0 then
        parseGo rest seps (c0 :: cs ++ [c])
      else
        (seps, some (c0 :: cs)) :: parseGo rest seps [c]

/-- `vercmp.parse`: a version fragment as a list of
(separator count, run) pairs; the run is `none` only for a trailing empty
run. -/
def parse (v : List Char) : List (Nat × Option (List Char)) :=
  parseGo v 0 []

/-- One iteration of the `rpmvercmp` loop body after the separator-count
check: `some r` means return `r`, `none` means continue with the next pair. -/
def runCmp (p1 p2 : Option (List Char)) : Option Int :=
  match p1, p2 with
  | none, none => some 0
  | none, some q2 => some (if get_type_run q2 = RT.alpha then 1 else -1)
  | some q1, none => some (if get_type_run q1 = RT.alpha then -1 else 1)
  | some q1, some q2 =>
    let t1 := get_type_run q1
    let t2 := get_type_run q2
    if t1 ≠ t2 then
      if t1 = RT.digit then some 1
      else if t2 = RT.digit then some (-1)
      else none
    else if t1 = RT.digit then
      if cmpN (str_to_int q1) (str_to_int q2) ≠ 0 then
        some (cmpN (str_to_int q1) (str_to_int q2))
      else none
    else if t1 = RT.alpha then
      if cmpL q1 q2 ≠ 0 then some (cmpL q1 q2) else none
    else none

/-- The `rpmvercmp` loop over `zip_longest(parse v1, parse v2)`: an exhausted
side contributes a `(None, None)` fill whose separator count is skipped. -/
def rpmloop : List (Nat × Option (List Char)) → List (Nat × Option (List Char)) → Int
  | [], l2 =>
    match l2 with
    | [] => 0
    | (_, p2) :: _ => (runCmp none p2).getD 0
  | (s1, p1) :: t1, l2 =>
    match l2 with
    | [] => (runCmp p1 none).getD 0
    | (s2, p2) :: t2 =>
      if cmpN s1 s2 ≠ 0 then cmpN s1 s2
      else
        match runCmp p1 p2 with
        | some r => r
        | none => rpmloop t1 t2

/-- `rpmvercmp` on two version fragments. -/
def rpmvercmp (v1 v2 : List Char) : Int :=
  rpmloop (parse v1) (parse v2)

/-- `vercmp.split`: epoch before the first `~` (default `"0"`), then release
after the last `-` of the remainder (absent when there is no `-`). -/
def vsplit (v : List Char) : List Char × List Char × Option (List Char) :=
  let ev : List Char × List Char :=
    match splitFirst '~' v with
    | some (a, b) => (a, b)
    | none => (['0'], v)
  match splitLast '-' ev.2 with
  | some (a, b) => (ev.1, a, some b)
  | none => (ev.1, ev.2, none)

/-- `vercmp` on character lists: epoch, then body, then (when both are
present) release. -/
def vercmpL (a b : List Char) : Int :=
  if rpmvercmp (vsplit a).1 (vsplit b).1 = 0 then
    if rpmvercmp (vsplit a).2.1 (vsplit b).2.1 = 0 then
      match (vsplit a).2.2, (vsplit b).2.2 with
      | some r1, some r2 => rpmvercmp r1 r2
      | _, _ => 0
    else rpmvercmp (vsplit a).2.1 (vsplit b).2.1
  else rpmvercmp (vsplit a).1 (vsplit b).1

/-- `vercmp(v1, v2)` from src/main.py. -/
def vercmp (v1 v2 : String) : Int :=
  vercmpL v1.data v2.data

/-- `version_is_newer_than(v1, v2)` from src/main.py. -/
def version_is_newer_than (v1 v2 : String) : Bool :=
  vercmp v1 v2 = 1

/-! ## Comparator algebra: range, reflexivity, antisymmetry -/

theorem cmpN_self (a : Nat) : cmpN a a = 0 := by
  simp [cmpN]

theorem cmpN_swap (a b : Nat) : cmpN b a = -cmpN a b := by
  unfold cmpN
  rcases Nat.lt_trichotomy a b with h | h | h
  · simp [h, Nat.not_lt_of_lt h, Nat.ne_of_lt h]
  · simp [h]
  · simp [h, Nat.not_lt_of_lt h, Nat.ne_of_gt h]

theorem cmpN_range (a b : Nat) : cmpN a b = -1 ∨ cmpN a b = 0 ∨ cmpN a b = 1 := by
  unfold cmpN
  split
  · right; right; rfl
  · split
    · left; rfl
    · right; left; rfl

theorem cmpL_self (l : List Char) : cmpL l l = 0 := by
  induction l with
  | nil => rfl
  | cons a as ih => simp [cmpL, ih]

theorem cmpL_swap (a b : List Char) : cmpL b a = -cmpL a b := by
  induction a generalizing b with
  | nil => cases b <;> simp [cmpL]
  | cons x xs ih =>
    cases b with
    | nil => simp [cmpL]
    | cons y ys =>
      unfold cmpL
      rcases Nat.lt_trichotomy x.toNat y.toNat with h | h | h
      · simp [h, Nat.not_lt_of_lt h]
      · simp [h, ih ys]
      · simp [h, Nat.not_lt_of_lt h]

theorem cmpL_range (a b : List Char) : cmpL a b = -1 ∨ cmpL a b = 0 ∨ cmpL a b = 1 := by
  induction a generalizing b with
  | nil => cases b <;> simp [cmpL]
  | cons x xs ih =>
    cases b with
    | nil => simp [cmpL]
    | cons y ys =>
      unfold cmpL
      split
      · right; right; rfl
      · split
        · left; rfl
        · exact ih ys

theorem runCmp_refl (q : List Char) : runCmp (some q) (some q) = none := by
  unfold runCmp
  simp [cmpN_self, cmpL_self]

theorem runCmp_swap (p1 p2 : Option (List Char)) :
    runCmp p2 p1 = (runCmp p1 p2).map (fun r => -r) := by
  match p1, p2 with
  | none, none => rfl
  | none, some q2 =>
    by_cases h : get_type_run q2 = RT.alpha <;> simp [runCmp, h]
  | some q1, none =>
    by_cases h : get_type_run q1 = RT.alpha <;> simp [runCmp, h]
  | some q1, some q2 =>
    rcases hq1 : get_type_run q1 with _ | _ | _ <;>
      rcases hq2 : get_type_run q2 with _ | _ | _ <;>
        simp only [runCmp, hq1, hq2] <;>
          try simp
    · rw [cmpN_swap (str_to_int q1) (str_to_int q2)]
      by_cases hc : cmpN (str_to_int q1) (str_to_int q2) = 0 <;> simp [hc]
    · rw [cmpL_swap q1 q2]
      by_cases hc : cmpL q1 q2 = 0 <;> simp [hc]

theorem runCmp_range (p1 p2 : Option (List Char)) (r : Int)
    (h : runCmp p1 p2 = some r) : r = -1 ∨ r = 0 ∨ r = 1 := by
  match p1, p2 with
  | none, none => simp [runCmp] at h; simp [← h]
  | none, some q2 =>
    simp only [runCmp] at h
    split at h <;> simp_all
  | some q1, none =>
    simp only [runCmp] at h
    split at h <;> simp_all
  | some q1, some q2 =>
    simp only [runCmp] at h
    split at h
    · split at h
      · simp_all
      · split at h <;> simp_all
    · split at h
      · split at h
        · rcases cmpN_range (str_to_int q1) (str_to_int q2) with hc | hc | hc <;>
            simp_all
        · simp_all
      · split at h
        · split at h
          · rcases cmpL_range q1 q2 with hc | hc | hc <;> simp_all
          · simp_all
        · simp_all

theorem rpmloop_nil_cons (s : Nat) (p : Option (List Char))
    (t : List (Nat × Option (List Char))) :
    rpmloop [] ((s, p) :: t) = (runCmp none p).getD 0 := rfl

theorem rpmloop_cons_nil (s : Nat) (p : Option (List Char))
    (t : List (Nat × Option (List Char))) :
    rpmloop ((s, p) :: t) [] = (runCmp p none).getD 0 := rfl

theorem rpmloop_cons_cons (s1 : Nat) (p1 : Option (List Char))
    (t1 : List (Nat × Option (List Char))) (s2 : Nat) (p2 : Option (List Char))
    (t2 : List (Nat × Option (List Char))) :
    rpmloop ((s1, p1) :: t1) ((s2, p2) :: t2) =
      if cmpN s1 s2 ≠ 0 then cmpN s1 s2
      else
        match runCmp p1 p2 with
        | some r => r
        | none => rpmloop t1 t2 := rfl

theorem rpmloop_self (l : List (Nat × Option (List Char))) : rpmloop l l = 0 := by
  induction l with
  | nil => rfl
  | cons hd t ih =>
    rcases hd with ⟨s, p⟩
    rw [rpmloop_cons_cons, cmpN_self, if_neg (by simp)]
    cases p with
    | none => rfl
    | some q =>
      rw [runCmp_refl]
      exact ih

theorem rpmloop_swap (l1 l2 : List (Nat × Option (List Char))) :
    rpmloop l2 l1 = -rpmloop l1 l2 := by
  induction l1 generalizing l2 with
  | nil =>
    cases l2 with
    | nil => rfl
    | cons hd t =>
      rcases hd with ⟨s, p⟩
      rw [rpmloop_nil_cons, rpmloop_cons_nil, runCmp_swap]
      cases runCmp none p <;> simp
  | cons hd t1 ih =>
    rcases hd with ⟨s1, p1⟩
    cases l2 with
    | nil =>
      rw [rpmloop_nil_cons, rpmloop_cons_nil, runCmp_swap]
      cases runCmp p1 none <;> simp
    | cons hd2 t2 =>
      rcases hd2 with ⟨s2, p2⟩
      rw [rpmloop_cons_cons, rpmloop_cons_cons]
      by_cases h : cmpN s1 s2 = 0
      · have h2 : cmpN s2 s1 = 0 := by rw [cmpN_swap, h]; rfl
        rw [if_neg (by simpa using h2), if_neg (by simpa using h), runCmp_swap]
        cases hr : runCmp p1 p2 with
        | none => simpa using ih t2
        | some r => simp
      · have h2 : cmpN s2 s1 ≠ 0 := by
          rw [cmpN_swap]
          simpa using h
        rw [if_pos (by simpa using h2), if_pos (by simpa using h)]
        rw [cmpN_swap]

theorem rpmloop_range (l1 l2 : List (Nat × Option (List Char))) :
    rpmloop l1 l2 = -1 ∨ rpmloop l1 l2 = 0 ∨ rpmloop l1 l2 = 1 := by
  induction l1 generalizing l2 with
  | nil =>
    cases l2 with
    | nil => simp [rpmloop]
    | cons hd t =>
      rcases hd with ⟨s, p⟩
      rw [rpmloop_nil_cons]
      cases hr : runCmp none p with
      | none => simp
      | some r =>
        simpa using runCmp_range none p r hr
  | cons hd t1 ih =>
    rcases hd with ⟨s1, p1⟩
    cases l2 with
    | nil =>
      rw [rpmloop_cons_nil]
      cases hr : runCmp p1 none with
      | none => simp
      | some r => simpa using runCmp_range p1 none r hr
    | cons hd2 t2 =>
      rcases hd2 with ⟨s2, p2⟩
      rw [rpmloop_cons_cons]
      by_cases h : cmpN s1 s2 = 0
      · rw [if_neg (by simpa using h)]
        cases hr : runCmp p1 p2 with
        | none => exact ih t2
        | some r => exact runCmp_range p1 p2 r hr
      · rw [if_pos (by simpa using h)]
        exact cmpN_range s1 s2

theorem rpmvercmp_self (v : List Char) : rpmvercmp v v = 0 :=
  rpmloop_self _

theorem rpmvercmp_swap (a b : List Char) : rpmvercmp b a = -rpmvercmp a b :=
  rpmloop_swap _ _

theorem rpmvercmp_range (a b : List Char) :
    rpmvercmp a b = -1 ∨ rpmvercmp a b = 0 ∨ rpmvercmp a b = 1 :=
  rpmloop_range _ _

theorem vercmp_refl (a : String) : vercmp a a = 0 := by
  unfold vercmp vercmpL
  rw [rpmvercmp_self, rpmvercmp_self, if_pos rfl, if_pos rfl]
  cases h : (vsplit a.data).2.2 with
  | none => rfl
  | some r => exact rpmvercmp_self r

theorem vercmp_antisym (a b : String) : vercmp b a = -vercmp a b := by
  unfold vercmp vercmpL
  by_cases h1 : rpmvercmp (vsplit a.data).1 (vsplit b.data).1 = 0
  · have h1' : rpmvercmp (vsplit b.data).1 (vsplit a.data).1 = 0 := by
      rw [rpmvercmp_swap, h1, neg_zero]
    rw [if_pos h1, if_pos h1']
    by_cases h2 : rpmvercmp (vsplit a.data).2.1 (vsplit b.data).2.1 = 0
    · have h2' : rpmvercmp (vsplit b.data).2.1 (vsplit a.data).2.1 = 0 := by
        rw [rpmvercmp_swap, h2, neg_zero]
      rw [if_pos h2, if_pos h2']
      rcases ha : (vsplit a.data).2.2 with _ | r1 <;>
        rcases hb : (vsplit b.data).2.2 with _ | r2
      · show (0 : Int) = -(0 : Int)
        simp
      · show (0 : Int) = -(0 : Int)
        simp
      · show (0 : Int) = -(0 : Int)
        simp
      · exact rpmvercmp_swap r1 r2
    · have h2' : rpmvercmp (vsplit b.data).2.1 (vsplit a.data).2.1 ≠ 0 := by
        rw [rpmvercmp_swap]
        simpa using h2
      rw [if_neg h2, if_neg h2']
      exact rpmvercmp_swap _ _
  · have h1' : rpmvercmp (vsplit b.data).1 (vsplit a.data).1 ≠ 0 := by
      rw [rpmvercmp_swap]
      simpa using h1
    rw [if_neg h1, if_neg h1']
    exact rpmvercmp_swap _ _

theorem vercmp_range (a b : String) :
    vercmp a b = -1 ∨ vercmp a b = 0 ∨ vercmp a b = 1 := by
  unfold vercmp vercmpL
  by_cases h1 : rpmvercmp (vsplit a.data).1 (vsplit b.data).1 = 0
  · rw [if_pos h1]
    by_cases h2 : rpmvercmp (vsplit a.data).2.1 (vsplit b.data).2.1 = 0
    · rw [if_pos h2]
      rcases ha : (vsplit a.data).2.2 with _ | r1 <;>
        rcases hb : (vsplit b.data).2.2 with _ | r2
      · simp
      · simp
      · simp
      · exact rpmvercmp_range r1 r2
    · rw [if_neg h2]
      exact rpmvercmp_range _ _
  · rw [if_neg h1]
    exact rpmvercmp_range _ _

/-! ## The reference algorithm of spec section 4.2, transcribed from the
spec text, for the refinement claim (C2). -/

theorem length_dropWhile_le' (p : Char → Bool) (l : List Char) :
    (l.dropWhile p).length ≤ l.length := by
  induction l with
  | nil => simp [List.dropWhile]
  | cons a as ih =>
    rw [List.dropWhile_cons]
    split
    · exact Nat.le_succ_of_le ih
    · exact Nat.le_refl _

/-- Spec step 1a: the epoch is the substring before the first `~`
(default `"0"`), the remainder follows the `~`. -/
def spec_epoch (v : List Char) : List Char × List Char :=
  if '~' ∈ v then
    (v.takeWhile (fun c => c ≠ '~'), (v.dropWhile (fun c => c ≠ '~')).drop 1)
  else (['0'], v)

/-- Spec step 1b: the release is the substring after the last `-` in the
remainder (absent when there is no `-`); the body is what remains. -/
def spec_rel (v : List Char) : List Char × Option (List Char) :=
  if '-' ∈ v then
    (((v.reverse.dropWhile (fun c => c ≠ '-')).drop 1).reverse,
      some ((v.reverse.takeWhile (fun c => c ≠ '-')).reverse))
  else (v, none)

/-- Spec step 3 tokenization: scan the string into alternating maximal
same-class runs, each tagged with the number of separator characters seen
before it; a trailing empty run is recorded as `none`. -/
def specRuns (v : List Char) (seps : Nat) : List (Nat × Option (List Char)) :=
  match v with
  | [] => [(seps, none)]
  | c :: cs =>
    if get_type c = RT.other then specRuns cs (seps + 1)
    else
      if (cs.dropWhile (fun d => get_type d = get_type c)).isEmpty then
        [(seps, some (c :: cs.takeWhile (fun d => get_type d = get_type c)))]
      else
        (seps, some (c :: cs.takeWhile (fun d => get_type d = get_type c))) ::
          specRuns (cs.dropWhile (fun d => get_type d = get_type c)) seps
termination_by v.length
decreasing_by
  all_goals
    simp only [List.length_cons]
    first
      | exact Nat.lt_succ_self _
      | exact Nat.lt_succ_of_le (length_dropWhile_le' _ _)

/-- Spec step 3 run classification: a run is classified by its first
character. -/
def spec_type_run (l : List Char) : RT :=
  match l with
  | [] => RT.other
  | c :: _ => get_type c

/-- Spec step 3 comparison of one aligned run pair (separator counts already
equal): a missing run loses to a present alpha run but wins against
everything else; a digit run outranks an alpha run; digit runs compare as
integers; alpha runs compare lexicographically by codepoint; `none` means
the runs tie and scanning continues. -/
def specRunCmp (p1 p2 : Option (List Char)) : Option Int :=
  match p1, p2 with
  | none, none => some 0
  | none, some q2 => some (if spec_type_run q2 = RT.alpha then 1 else -1)
  | some q1, none => some (if spec_type_run q1 = RT.alpha then -1 else 1)
  | some q1, some q2 =>
    if spec_type_run q1 ≠ spec_type_run q2 then
      if spec_type_run q1 = RT.digit then some 1
      else if spec_type_run q2 = RT.digit then some (-1)
      else none
    else if spec_type_run q1 = RT.digit then
      if cmpN (str_to_int q1) (str_to_int q2) ≠ 0 then
        some (cmpN (str_to_int q1) (str_to_int q2))
      else none
    else if spec_type_run q1 = RT.alpha then
      if cmpL q1 q2 ≠ 0 then some (cmpL q1 q2) else none
    else none

/-- Spec step 3 run-by-run comparison: separator counts are compared first
when both runs are present; an exhausted side behaves as a missing run;
exhausted on both sides means equal. -/
def specLoop : List (Nat × Option (List Char)) → List (Nat × Option (List Char)) → Int
  | [], l2 =>
    match l2 with
    | [] => 0
    | (_, p2) :: _ => (specRunCmp none p2).getD 0
  | (s1, p1) :: t1, l2 =>
    match l2 with
    | [] => (specRunCmp p1 none).getD 0
    | (s2, p2) :: t2 =>
      if cmpN s1 s2 ≠ 0 then cmpN s1 s2
      else
        match specRunCmp p1 p2 with
        | some r => r
        | none => specLoop t1 t2

/-- The full reference algorithm of spec section 4.2: split both versions
into (epoch, body, release), then compare epoch, body, and (when both are
present) release as token-run sequences. -/
def vercmp_spec (v1 v2 : String) : Int :=
  if specLoop (specRuns (spec_epoch v1.data).1 0) (specRuns (spec_epoch v2.data).1 0) = 0 then
    if specLoop (specRuns (spec_rel (spec_epoch v1.data).2).1 0)
        (specRuns (spec_rel (spec_epoch v2.data).2).1 0) = 0 then
      match (spec_rel (spec_epoch v1.data).2).2, (spec_rel (spec_epoch v2.data).2).2 with
      | some r1, some r2 => specLoop (specRuns r1 0) (specRuns r2 0)
      | _, _ => 0
    else specLoop (specRuns (spec_rel (spec_epoch v1.data).2).1 0)
        (specRuns (spec_rel (spec_epoch v2.data).2).1 0)
  else specLoop (specRuns (spec_epoch v1.data).1 0) (specRuns (spec_epoch v2.data).1 0)

/-! ## Refinement: the code comparator equals the spec algorithm -/

theorem takeWhile_all_eq {p : Char → Bool} {l : List Char}
    (h : ∀ x ∈ l, p x = true) : l.takeWhile p = l := by
  induction l with
  | nil => rfl
  | cons a as ih =>
    rw [List.takeWhile_cons, if_pos (h a (List.mem_cons_self a as))]
    rw [ih fun x hx => h x (List.mem_cons_of_mem a hx)]

theorem dropWhile_all_eq {p : Char → Bool} {l : List Char}
    (h : ∀ x ∈ l, p x = true) : l.dropWhile p = [] := by
  induction l with
  | nil => rfl
  | cons a as ih =>
    rw [List.dropWhile_cons, if_pos (h a (List.mem_cons_self a as))]
    exact ih fun x hx => h x (List.mem_cons_of_mem a hx)

theorem takeWhile_append_all {p : Char → Bool} {u : List Char}
    (w : List Char) (h : ∀ x ∈ u, p x = true) :
    (u ++ w).takeWhile p = u ++ w.takeWhile p := by
  induction u with
  | nil => rfl
  | cons a as ih =>
    rw [List.cons_append, List.takeWhile_cons,
      if_pos (h a (List.mem_cons_self a as)),
      ih fun x hx => h x (List.mem_cons_of_mem a hx), List.cons_append]

theorem dropWhile_append_all {p : Char → Bool} {u : List Char}
    (w : List Char) (h : ∀ x ∈ u, p x = true) :
    (u ++ w).dropWhile p = w.dropWhile p := by
  induction u with
  | nil => rfl
  | cons a as ih =>
    rw [List.cons_append, List.dropWhile_cons,
      if_pos (h a (List.mem_cons_self a as))]
    exact ih fun x hx => h x (List.mem_cons_of_mem a hx)

theorem splitFirst_of_not_mem {c : Char} {v : List Char} (h : c ∉ v) :
    splitFirst c v = none := by
  induction v with
  | nil => rfl
  | cons a as ih =>
    have ha : a ≠ c := fun hh => h (hh ▸ List.mem_cons_self a as)
    rw [splitFirst, if_neg ha, ih fun hh => h (List.mem_cons_of_mem a hh)]

theorem splitFirst_of_mem {c : Char} {v : List Char} (h : c ∈ v) :
    splitFirst c v =
      some (v.takeWhile (fun d => d ≠ c), (v.dropWhile (fun d => d ≠ c)).drop 1) := by
  induction v with
  | nil => cases h
  | cons a as ih =>
    by_cases ha : a = c
    · subst ha
      rw [splitFirst, if_pos rfl, List.takeWhile_cons, List.dropWhile_cons]
      simp
    · have hm : c ∈ as := by
        rcases List.mem_cons.mp h with h' | h'
        · exact absurd h'.symm ha
        · exact h'
      rw [splitFirst, if_neg ha, ih hm, List.takeWhile_cons, List.dropWhile_cons]
      simp [ha]

theorem vsplit_spec (v : List Char) :
    vsplit v =
      ((spec_epoch v).1, (spec_rel (spec_epoch v).2).1,
        (spec_rel (spec_epoch v).2).2) := by
  unfold vsplit spec_epoch spec_rel splitLast
  by_cases h1 : '~' ∈ v
  · rw [splitFirst_of_mem h1, if_pos h1]
    dsimp only
    by_cases h2 : '-' ∈ (v.dropWhile (fun d => d ≠ '~')).drop 1
    · rw [if_pos h2, splitFirst_of_mem (List.mem_reverse.mpr h2)]
    · rw [if_neg h2,
        splitFirst_of_not_mem (fun hh => h2 (List.mem_reverse.mp hh))]
  · rw [splitFirst_of_not_mem h1, if_neg h1]
    dsimp only
    by_cases h2 : '-' ∈ v
    · rw [if_pos h2, splitFirst_of_mem (List.mem_reverse.mpr h2)]
    · rw [if_neg h2,
        splitFirst_of_not_mem (fun hh => h2 (List.mem_reverse.mp hh))]

theorem parseGo_nil_nil (seps : Nat) : parseGo [] seps [] = [(seps, none)] := rfl

theorem parseGo_nil_cons (seps : Nat) (c0 : Char) (cs : List Char) :
    parseGo [] seps (c0 :: cs) = [(seps, some (c0 :: cs))] := rfl

theorem parseGo_cons_nil (c : Char) (rest : List Char) (seps : Nat) :
    parseGo (c :: rest) seps [] =
      if get_type c = RT.other then parseGo rest (seps + 1) []
      else parseGo rest seps [c] := rfl

theorem parseGo_cons_cons (c : Char) (rest : List Char) (seps : Nat)
    (c0 : Char) (cs : List Char) :
    parseGo (c :: rest) seps (c0 :: cs) =
      if get_type c = RT.other then
        (seps, some (c0 :: cs)) :: parseGo rest (seps + 1) []
      else if get_type c = get_type c0 then
        parseGo rest seps (c0 :: cs ++ [c])
      else
        (seps, some (c0 :: cs)) :: parseGo rest seps [c] := rfl

theorem specRuns_nil (seps : Nat) : specRuns [] seps = [(seps, none)] := by
  rw [specRuns]

theorem specRuns_other {c : Char} (cs : List Char) (seps : Nat)
    (h : get_type c = RT.other) :
    specRuns (c :: cs) seps = specRuns cs (seps + 1) := by
  rw [specRuns]
  simp [h]

theorem specRuns_chunk {c : Char} (cs : List Char) (seps : Nat)
    (h : ¬get_type c = RT.other) :
    specRuns (c :: cs) seps =
      if (cs.dropWhile (fun d => get_type d = get_type c)).isEmpty then
        [(seps, some (c :: cs.takeWhile (fun d => get_type d = get_type c)))]
      else
        (seps, some (c :: cs.takeWhile (fun d => get_type d = get_type c))) ::
          specRuns (cs.dropWhile (fun d => get_type d = get_type c)) seps := by
  rw [specRuns]
  simp [h]

theorem parseGo_eq_specRuns : ∀ n v, List.length v ≤ n →
    (∀ seps, parseGo v seps [] = specRuns v seps) ∧
    (∀ seps c0 cs, (∀ d ∈ cs, get_type d = get_type c0) →
      get_type c0 ≠ RT.other →
      parseGo v seps (c0 :: cs) = specRuns (c0 :: (cs ++ v)) seps) := by
  intro n
  induction n with
  | zero =>
    intro v hv
    have hv0 : v = [] := List.length_eq_zero.mp (Nat.le_zero.mp hv)
    subst hv0
    refine ⟨fun seps => by rw [parseGo_nil_nil, specRuns_nil], ?_⟩
    intro seps c0 cs hcs hc0
    rw [parseGo_nil_cons, List.append_nil, specRuns_chunk cs seps hc0,
      dropWhile_all_eq (fun d hd => by simp [hcs d hd]),
      takeWhile_all_eq (fun d hd => by simp [hcs d hd])]
    simp
  | succ n ih =>
    intro v hv
    cases v with
    | nil =>
      refine ⟨fun seps => by rw [parseGo_nil_nil, specRuns_nil], ?_⟩
      intro seps c0 cs hcs hc0
      rw [parseGo_nil_cons, List.append_nil, specRuns_chunk cs seps hc0,
        dropWhile_all_eq (fun d hd => by simp [hcs d hd]),
        takeWhile_all_eq (fun d hd => by simp [hcs d hd])]
      simp
    | cons c rest =>
      have hrest : rest.length ≤ n := by
        have := hv
        simp only [List.length_cons] at this
        omega
      obtain ⟨ihP, ihQ⟩ := ih rest hrest
      constructor
      · intro seps
        by_cases hc : get_type c = RT.other
        · rw [parseGo_cons_nil, if_pos hc, specRuns_other rest seps hc, ihP]
        · rw [parseGo_cons_nil, if_neg hc]
          have := ihQ seps c [] (by simp) hc
          simpa using this
      · intro seps c0 cs hcs hc0
        rw [parseGo_cons_cons]
        by_cases hc : get_type c = RT.other
        · have hne : ¬(get_type c = get_type c0) := by
            rw [hc]
            exact fun hh => hc0 hh.symm
          have hb : (decide (get_type c = get_type c0)) = false := by
            simp [hne]
          rw [if_pos hc, ihP,
            specRuns_chunk (cs ++ c :: rest) seps hc0,
            takeWhile_append_all _ (fun d hd => by simp [hcs d hd]),
            dropWhile_append_all _ (fun d hd => by simp [hcs d hd]),
            List.takeWhile_cons, List.dropWhile_cons, hb]
          simp only [Bool.false_eq_true, if_false, List.isEmpty_cons,
            List.append_nil]
          rw [specRuns_other rest seps hc]
        · by_cases hc2 : get_type c = get_type c0
          · rw [if_neg hc, if_pos hc2, List.cons_append]
            have hcs' : ∀ d ∈ cs ++ [c], get_type d = get_type c0 := by
              intro d hd
              rcases List.mem_append.mp hd with hd' | hd'
              · exact hcs d hd'
              · rw [List.mem_singleton.mp hd']
                exact hc2
            rw [ihQ seps c0 (cs ++ [c]) hcs' hc0]
            congr 1
            simp
          · have hb : (decide (get_type c = get_type c0)) = false := by
              simp [hc2]
            rw [if_neg hc, if_neg hc2,
              specRuns_chunk (cs ++ c :: rest) seps hc0,
              takeWhile_append_all _ (fun d hd => by simp [hcs d hd]),
              dropWhile_append_all _ (fun d hd => by simp [hcs d hd]),
              List.takeWhile_cons, List.dropWhile_cons, hb]
            simp only [Bool.false_eq_true, if_false, List.isEmpty_cons,
              List.append_nil]
            have := ihQ seps c [] (by simp) hc
            rw [this]
            simp

/-- The code tokenizer agrees with the spec tokenizer. -/
theorem parse_eq_specRuns (v : List Char) : parse v = specRuns v 0 :=
  (parseGo_eq_specRuns v.length v (Nat.le_refl _)).1 0

/-- A well-formed token run: nonempty and homogeneous (every character has
the class of the first). -/
def GoodRun (q : List Char) : Prop :=
  match q with
  | [] => False
  | c :: cs => ∀ d ∈ cs, get_type d = get_type c

theorem get_type_digit_iff (c : Char) :
    get_type c = RT.digit ↔ c.isDigit = true := by
  unfold get_type
  by_cases hd : c.isDigit <;> by_cases ha : c.isAlpha <;> simp [hd, ha]

theorem get_type_alpha_iff (c : Char) :
    get_type c = RT.alpha ↔ (c.isDigit = false ∧ c.isAlpha = true) := by
  unfold get_type
  by_cases hd : c.isDigit <;> by_cases ha : c.isAlpha <;> simp [hd, ha]

theorem get_type_other_iff (c : Char) :
    get_type c = RT.other ↔ (c.isDigit = false ∧ c.isAlpha = false) := by
  unfold get_type
  by_cases hd : c.isDigit <;> by_cases ha : c.isAlpha <;> simp [hd, ha]

/-- On a well-formed run, whole-string classification (Python `str.isdigit`
on the run) agrees with first-character classification (the spec wording). -/
theorem get_type_run_eq_spec {q : List Char} (h : GoodRun q) :
    get_type_run q = spec_type_run q := by
  match q with
  | [] => exact absurd h (by simp [GoodRun])
  | c :: cs =>
    have hall : ∀ d ∈ cs, get_type d = get_type c := h
    show get_type_run (c :: cs) = get_type c
    unfold get_type_run
    rcases hct : get_type c with _ | _ | _
    · have hc : c.isDigit = true := (get_type_digit_iff c).mp hct
      have : (c :: cs).all Char.isDigit = true := by
        rw [List.all_eq_true]
        intro d hd
        rcases List.mem_cons.mp hd with h' | h'
        · rw [h']; exact hc
        · exact (get_type_digit_iff d).mp (hct ▸ hall d h')
      simp [this]
    · have hc := (get_type_alpha_iff c).mp hct
      have h1 : (c :: cs).all Char.isDigit = false := by
        rw [Bool.eq_false_iff]
        intro hcon
        rw [List.all_eq_true] at hcon
        have := hcon c (List.mem_cons_self c cs)
        rw [hc.1] at this
        cases this
      have h2 : (c :: cs).all Char.isAlpha = true := by
        rw [List.all_eq_true]
        intro d hd
        rcases List.mem_cons.mp hd with h' | h'
        · rw [h']; exact hc.2
        · exact ((get_type_alpha_iff d).mp (hct ▸ hall d h')).2
      simp [h1, h2]
    · have hc := (get_type_other_iff c).mp hct
      have h1 : (c :: cs).all Char.isDigit = false := by
        rw [Bool.eq_false_iff]
        intro hcon
        rw [List.all_eq_true] at hcon
        have := hcon c (List.mem_cons_self c cs)
        rw [hc.1] at this
        cases this
      have h2 : (c :: cs).all Char.isAlpha = false := by
        rw [Bool.eq_false_iff]
        intro hcon
        rw [List.all_eq_true] at hcon
        have := hcon c (List.mem_cons_self c cs)
        rw [hc.2] at this
        cases this
      simp [h1, h2]

theorem runCmp_eq_specRunCmp {p1 p2 : Option (List Char)}
    (h1 : ∀ q, p1 = some q → GoodRun q) (h2 : ∀ q, p2 = some q → GoodRun q) :
    runCmp p1 p2 = specRunCmp p1 p2 := by
  match p1, p2 with
  | none, none => rfl
  | none, some q2 =>
    show some _ = some _
    rw [get_type_run_eq_spec (h2 q2 rfl)]
  | some q1, none =>
    show some _ = some _
    rw [get_type_run_eq_spec (h1 q1 rfl)]
  | some q1, some q2 =>
    simp only [runCmp, specRunCmp]
    rw [get_type_run_eq_spec (h1 q1 rfl), get_type_run_eq_spec (h2 q2 rfl)]

/-- Every run in a token list is well-formed. -/
def GoodRuns (l : List (Nat × Option (List Char))) : Prop :=
  ∀ s q, (s, some q) ∈ l → GoodRun q

theorem goodRuns_cons {s : Nat} {p : Option (List Char)}
    {t : List (Nat × Option (List Char))} (h : GoodRuns ((s, p) :: t)) :
    (∀ q, p = some q → GoodRun q) ∧ GoodRuns t := by
  constructor
  · intro q hq
    exact h s q (hq ▸ List.mem_cons_self _ _)
  · intro s' q hq
    exact h s' q (List.mem_cons_of_mem _ hq)

theorem specRuns_good : ∀ n v, List.length v ≤ n → ∀ seps,
    GoodRuns (specRuns v seps) := by
  intro n
  induction n with
  | zero =>
    intro v hv seps
    have hv0 : v = [] := List.length_eq_zero.mp (Nat.le_zero.mp hv)
    subst hv0
    rw [specRuns_nil]
    intro s q hq
    simp at hq
  | succ n ih =>
    intro v hv seps
    cases v with
    | nil =>
      rw [specRuns_nil]
      intro s q hq
      simp at hq
    | cons c cs =>
      have hcs : cs.length ≤ n := by
        simp only [List.length_cons] at hv
        omega
      by_cases hc : get_type c = RT.other
      · rw [specRuns_other cs seps hc]
        exact ih cs hcs (seps + 1)
      · rw [specRuns_chunk cs seps hc]
        have hgood : GoodRun (c :: cs.takeWhile (fun d => get_type d = get_type c)) := by
          intro d hd
          have := List.mem_takeWhile_imp hd
          simpa using this
        split
        · intro s q hq
          simp only [List.mem_singleton, Prod.mk.injEq, Option.some.injEq] at hq
          rw [hq.2]
          exact hgood
        · intro s q hq
          rcases List.mem_cons.mp hq with h' | h'
          · simp only [Prod.mk.injEq, Option.some.injEq] at h'
            rw [h'.2]
            exact hgood
          · have hdrop : (cs.dropWhile (fun d => get_type d = get_type c)).length ≤ n :=
              Nat.le_trans (length_dropWhile_le' _ cs) hcs
            exact ih _ hdrop seps s q h'

theorem specLoop_nil_nil : specLoop [] [] = 0 := rfl

theorem specLoop_nil_cons (s : Nat) (p : Option (List Char))
    (t : List (Nat × Option (List Char))) :
    specLoop [] ((s, p) :: t) = (specRunCmp none p).getD 0 := rfl

theorem specLoop_cons_nil (s : Nat) (p : Option (List Char))
    (t : List (Nat × Option (List Char))) :
    specLoop ((s, p) :: t) [] = (specRunCmp p none).getD 0 := rfl

theorem specLoop_cons_cons (s1 : Nat) (p1 : Option (List Char))
    (t1 : List (Nat × Option (List Char))) (s2 : Nat) (p2 : Option (List Char))
    (t2 : List (Nat × Option (List Char))) :
    specLoop ((s1, p1) :: t1) ((s2, p2) :: t2) =
      if cmpN s1 s2 ≠ 0 then cmpN s1 s2
      else
        match specRunCmp p1 p2 with
        | some r => r
        | none => specLoop t1 t2 := rfl

theorem rpmloop_eq_specLoop : ∀ l1 l2, GoodRuns l1 → GoodRuns l2 →
    rpmloop l1 l2 = specLoop l1 l2 := by
  intro l1
  induction l1 with
  | nil =>
    intro l2 _ h2
    cases l2 with
    | nil => rfl
    | cons hd t =>
      rcases hd with ⟨s, p⟩
      rw [rpmloop_nil_cons, specLoop_nil_cons,
        runCmp_eq_specRunCmp (fun q hq => by cases hq) (goodRuns_cons h2).1]
  | cons hd t1 ih =>
    intro l2 h1 h2
    rcases hd with ⟨s1, p1⟩
    cases l2 with
    | nil =>
      rw [rpmloop_cons_nil, specLoop_cons_nil,
        runCmp_eq_specRunCmp (goodRuns_cons h1).1 (fun q hq => by cases hq)]
    | cons hd2 t2 =>
      rcases hd2 with ⟨s2, p2⟩
      rw [rpmloop_cons_cons, specLoop_cons_cons,
        runCmp_eq_specRunCmp (goodRuns_cons h1).1 (goodRuns_cons h2).1]
      by_cases h : cmpN s1 s2 = 0
      · rw [if_neg (by simpa using h), if_neg (by simpa using h)]
        cases hr : specRunCmp p1 p2 with
        | none => exact ih t2 (goodRuns_cons h1).2 (goodRuns_cons h2).2
        | some r => rfl
      · rw [if_pos (by simpa using h), if_pos (by simpa using h)]

/-- The code `rpmvercmp` equals the spec token-run comparison. -/
theorem rpmvercmp_eq_spec (x y : List Char) :
    rpmvercmp x y = specLoop (specRuns x 0) (specRuns y 0) := by
  rw [rpmvercmp, parse_eq_specRuns, parse_eq_specRuns]
  exact rpmloop_eq_specLoop _ _
    (specRuns_good x.length x (Nat.le_refl _) 0)
    (specRuns_good y.length y (Nat.le_refl _) 0)

/-- The code comparator computes exactly the reference algorithm of spec
section 4.2. -/
theorem vercmp_eq_vercmp_spec (a b : String) : vercmp a b = vercmp_spec a b := by
  unfold vercmp vercmpL vercmp_spec
  rw [vsplit_spec a.data, vsplit_spec b.data]
  dsimp only
  simp only [rpmvercmp_eq_spec]

/-- C1 (amended): `vercmp` returns a value in `{-1, 0, 1}`; it is reflexive
(`vercmp a a = 0`) and antisymmetric (`vercmp a b = -vercmp b a`), so for any
two version strings exactly one of `a<b`, `a=b`, `a>b` holds.  Transitivity,
however, fails in general (see the counterexample theorem). -/
theorem vercmp_comparator_consistent (a b : String) :
    (vercmp a b = -1 ∨ vercmp a b = 0 ∨ vercmp a b = 1) ∧
    vercmp a a = 0 ∧
    vercmp b a = -vercmp a b :=
  ⟨vercmp_range a b, vercmp_refl a, vercmp_antisym a b⟩

/-- C1 (counterexample): transitivity of the strict order fails:
`"1" < "1.0"` and `"1.0" < "1.."` under `vercmp`, yet `vercmp "1" "1.."`
returns `0`, not `-1`. -/
theorem vercmp_transitivity_fails :
    vercmp "1" "1.0" = -1 ∧ vercmp "1.0" "1.." = -1 ∧ vercmp "1" "1.." = 0 := by
  refine ⟨by decide, by decide, by decide⟩

/-- C2: for every pair of version strings, `vercmp` computes exactly the
three-step reference algorithm of spec section 4.2 (epoch before the first
`~` with default `"0"`, release after the last `-` of the remainder, then
epoch / body / release compared as token-run sequences with the stated run
rules); in particular `vercmp "1.0alpha" "1.0" = -1`,
`vercmp "1.0-1" "1.0" = 0`, and the section-8 chain
`1.0-1 < 1.0-2 < 1.1-1 < 2:1.0-1` holds. -/
theorem vercmp_computes_reference_algorithm :
    (∀ a b : String, vercmp a b = vercmp_spec a b) ∧
    vercmp "1.0alpha" "1.0" = -1 ∧
    vercmp "1.0-1" "1.0" = 0 ∧
    vercmp "1.0-1" "1.0-2" = -1 ∧
    vercmp "1.0-2" "1.1-1" = -1 ∧
    vercmp "1.1-1" "2:1.0-1" = -1 :=
  ⟨vercmp_eq_vercmp_spec, by decide, by decide, by decide, by decide, by decide⟩

/-! ## File-list normalization `cleanup_files` (src/main.py lines 273-284) -/

/-- Lexicographic (codepoint) order on character lists, the Python string
`<=` used by `sorted`. -/
def leL : List Char → List Char → Bool
  | [], _ => true
  | _ :: _, [] => false
  | x :: xs, y :: ys =>
    if x.toNat < y.toNat then true
    else if y.toNat < x.toNat then false
    else leL xs ys

/-- Python string `a <= b`. -/
def leS (a b : String) : Bool := leL a.data b.data

/-- Python string `a >= b`. -/
def geS (a b : String) : Bool := leS b a

/-- `prefL p s`: `p` is a prefix of `s` (character lists). -/
def prefL : List Char → List Char → Bool
  | [], _ => true
  | _ :: _, [] => false
  | x :: xs, y :: ys => x = y && prefL xs ys

/-- Python `s.startswith(p)`. -/
def pyStartswith (s p : String) : Bool := prefL p.data s.data

/-- Python `p.endswith("/")`. -/
def endsSlash (p : String) : Bool := p.data.getLast? = some '/'

/-- Insertion step of a generic insertion sort with Boolean `le`. -/
def insertLe {α : Type} (le : α → α → Bool) (x : α) : List α → List α
  | [] => [x]
  | y :: ys => if le x y then x :: y :: ys else y :: insertLe le x ys

/-- Generic insertion sort with Boolean `le`. -/
def sortByLe {α : Type} (le : α → α → Bool) : List α → List α
  | [] => []
  | x :: xs => insertLe le x (sortByLe le xs)

/-- Python `sorted(files, reverse=True)` on strings. -/
def sortDesc (files : List String) : List String := sortByLe geS files

/-- The scan loop of `cleanup_files`: walk the descending-sorted paths,
drop a directory path implied by the previously retained path, root every
retained path. -/
def cleanupGo : List String → Option String → List String
  | [], _ => []
  | p :: rest, last =>
    if (match last with
        | some l => endsSlash p && pyStartswith l p
        | none => false) then
      cleanupGo rest last
    else ("/" ++ p) :: cleanupGo rest (some p)

/-- `cleanup_files(files)` from src/main.py: sort descending, scan-drop
redundant directory entries, root the rest, and reverse the result. -/
def cleanup_files (files : List String) : List String :=
  (cleanupGo (sortDesc files) none).reverse

/-- The retained raw paths of the `cleanup_files` scan (before rooting). -/
def keepScan : List String → Option String → List String
  | [], _ => []
  | p :: rest, last =>
    if (match last with
        | some l => endsSlash p && pyStartswith l p
        | none => false) then
      keepScan rest last
    else p :: keepScan rest (some p)

theorem cleanupGo_eq_map (xs : List String) (last : Option String) :
    cleanupGo xs last = (keepScan xs last).map (fun p => "/" ++ p) := by
  induction xs generalizing last with
  | nil => rfl
  | cons p rest ih =>
    show (if _ then cleanupGo rest last else ("/" ++ p) :: cleanupGo rest (some p)) =
      List.map _ (if _ then keepScan rest last else p :: keepScan rest (some p))
    split
    · exact ih last
    · rw [List.map_cons, ih (some p)]

/-- Spec-worded scan (for C8): walk the descending-sorted list and drop
every path ending in `/` that is a prefix of some path retained earlier in
the scan (`kept` accumulates the retained paths in scan order). -/
def keepSpecR : List String → List String → List String
  | [], _ => []
  | p :: rest, kept =>
    if endsSlash p && kept.any (fun q => pyStartswith q p) then
      keepSpecR rest kept
    else p :: keepSpecR rest (kept ++ [p])

/-- Spec-worded normalization (for C8): sort descending, drop redundant
directory entries against all retained paths, root, restore ascending
order. -/
def cleanup_files_spec (files : List String) : List String :=
  ((keepSpecR (sortDesc files) []).map (fun p => "/" ++ p)).reverse

/-! ## Order and sorting lemmas for path lists -/

theorem char_toNat_inj {a b : Char} (h : a.toNat = b.toNat) : a = b :=
  Char.eq_of_val_eq (UInt32.ext h)

theorem leL_refl (l : List Char) : leL l l = true := by
  induction l with
  | nil => rfl
  | cons x xs ih => simp [leL, ih]

theorem leL_total (a b : List Char) : leL a b = true ∨ leL b a = true := by
  induction a generalizing b with
  | nil => left; rfl
  | cons x xs ih =>
    cases b with
    | nil => right; rfl
    | cons y ys =>
      by_cases hxy : x.toNat < y.toNat
      · left; simp [leL, hxy]
      · by_cases hyx : y.toNat < x.toNat
        · right; simp [leL, hyx]
        · rcases ih ys with h | h
          · left; simp [leL, hxy, hyx, h]
          · right; simp [leL, hxy, hyx, h]

theorem leL_antisymm : ∀ {a b : List Char},
    leL a b = true → leL b a = true → a = b := by
  intro a
  induction a with
  | nil =>
    intro b _ h2
    cases b with
    | nil => rfl
    | cons y ys => simp [leL] at h2
  | cons x xs ih =>
    intro b h1 h2
    cases b with
    | nil => simp [leL] at h1
    | cons y ys =>
      by_cases hxy : x.toNat < y.toNat
      · simp [leL, hxy, Nat.not_lt_of_lt hxy] at h2
      · by_cases hyx : y.toNat < x.toNat
        · simp [leL, hxy, hyx] at h1
        · have hx : x = y := char_toNat_inj (by omega)
          subst hx
          simp only [leL, hxy, if_neg, if_false] at h1 h2
          rw [ih h1 h2]

theorem leL_trans : ∀ {a b c : List Char},
    leL a b = true → leL b c = true → leL a c = true := by
  intro a
  induction a with
  | nil => intro b c _ _; rfl
  | cons x xs ih =>
    intro b c h1 h2
    cases b with
    | nil => simp [leL] at h1
    | cons y ys =>
      cases c with
      | nil => simp [leL] at h2
      | cons z zs =>
        simp only [leL] at h1 h2 ⊢
        by_cases hxy : x.toNat < y.toNat
        · by_cases hyz : y.toNat < z.toNat
          · simp [Nat.lt_trans hxy hyz]
          · by_cases hzy : z.toNat < y.toNat
            · simp [hyz, hzy] at h2
            · have hyz' : y.toNat = z.toNat := by omega
              simp [hyz' ▸ hxy]
        · by_cases hyx : y.toNat < x.toNat
          · simp [hxy, hyx] at h1
          · have hxy' : x.toNat = y.toNat := by omega
            by_cases hyz : y.toNat < z.toNat
            · simp [show x.toNat < z.toNat by omega]
            · by_cases hzy : z.toNat < y.toNat
              · simp [hyz, hzy] at h2
              · have hall : ¬x.toNat < z.toNat ∧ ¬z.toNat < x.toNat := by omega
                simp only [hxy, hyx, if_neg, if_false] at h1
                simp only [hyz, hzy, if_neg, if_false] at h2
                simp [hall.1, hall.2, ih h1 h2]

theorem geS_total (a b : String) : geS a b = true ∨ geS b a = true :=
  (leL_total b.data a.data).elim Or.inl Or.inr

theorem string_data_inj {a b : String} (h : a.data = b.data) : a = b := by
  cases a
  cases b
  exact congrArg String.mk h

theorem geS_antisymm {a b : String} (h1 : geS a b = true)
    (h2 : geS b a = true) : a = b :=
  string_data_inj (leL_antisymm h2 h1)

theorem mem_insertLe {α : Type} (le : α → α → Bool) (x : α) :
    ∀ (l : List α) (a : α), a ∈ insertLe le x l ↔ a = x ∨ a ∈ l := by
  intro l
  induction l with
  | nil => intro a; simp [insertLe]
  | cons y ys ih =>
    intro a
    rw [insertLe]
    split
    · simp
    · rw [List.mem_cons, ih a, List.mem_cons]
      tauto

theorem insertLe_perm {α : Type} (le : α → α → Bool) (x : α) (l : List α) :
    List.Perm (insertLe le x l) (x :: l) := by
  induction l with
  | nil => exact List.Perm.refl _
  | cons y ys ih =>
    rw [insertLe]
    split
    · exact List.Perm.refl _
    · exact List.Perm.trans (List.Perm.cons y ih) (List.Perm.swap x y ys)

theorem sortByLe_perm {α : Type} (le : α → α → Bool) (l : List α) :
    List.Perm (sortByLe le l) l := by
  induction l with
  | nil => exact List.Perm.refl _
  | cons x xs ih =>
    rw [sortByLe]
    exact List.Perm.trans (insertLe_perm le x (sortByLe le xs))
      (List.Perm.cons x ih)

theorem insertLe_pairwise {α : Type} (le : α → α → Bool)
    (htot : ∀ a b, le a b = true ∨ le b a = true)
    (htr : ∀ {a b c}, le a b = true → le b c = true → le a c = true)
    (x : α) :
    ∀ {l : List α}, l.Pairwise (fun a b => le a b = true) →
      (insertLe le x l).Pairwise (fun a b => le a b = true) := by
  intro l
  induction l with
  | nil => intro _; simp [insertLe]
  | cons y ys ih =>
    intro h
    rcases List.pairwise_cons.mp h with ⟨hy, hys⟩
    rw [insertLe]
    split
    · rename_i hle
      refine List.pairwise_cons.mpr ⟨?_, h⟩
      intro b hb
      rcases List.mem_cons.mp hb with hb' | hb'
      · rw [hb']; exact hle
      · exact htr hle (hy b hb')
    · rename_i hnle
      refine List.pairwise_cons.mpr ⟨?_, ih hys⟩
      intro b hb
      rcases (mem_insertLe le x ys b).mp hb with hb' | hb'
      · rw [hb']
        rcases htot x y with h' | h'
        · exact absurd h' hnle
        · exact h'
      · exact hy b hb'

theorem sortByLe_pairwise {α : Type} (le : α → α → Bool)
    (htot : ∀ a b, le a b = true ∨ le b a = true)
    (htr : ∀ {a b c}, le a b = true → le b c = true → le a c = true)
    (l : List α) :
    (sortByLe le l).Pairwise (fun a b => le a b = true) := by
  induction l with
  | nil => simp [sortByLe]
  | cons x xs ih =>
    rw [sortByLe]
    exact insertLe_pairwise le htot htr x ih

theorem geS_trans {a b c : String} (h1 : geS a b = true)
    (h2 : geS b c = true) : geS a c = true :=
  leL_trans h2 h1

theorem sortDesc_pairwise (l : List String) :
    (sortDesc l).Pairwise (fun a b => geS a b = true) :=
  sortByLe_pairwise geS geS_total (fun h1 h2 => geS_trans h1 h2) l

theorem sortDesc_perm (l : List String) : List.Perm (sortDesc l) l :=
  sortByLe_perm geS l

/-! ## Equivalence of the scan with the spec description (C8) -/

/-- If `p ≤ l ≤ k` lexicographically and `p` is a prefix of `k`, then `p`
is a prefix of `l`. -/
theorem prefL_between : ∀ (p l k : List Char), leL p l = true →
    leL l k = true → prefL p k = true → prefL p l = true := by
  intro p
  induction p with
  | nil => intro l k _ _ _; rfl
  | cons c ps ih =>
    intro l k h1 h2 h3
    cases k with
    | nil => simp [prefL] at h3
    | cons zk zs =>
      cases l with
      | nil => simp [leL] at h1
      | cons d ls =>
        simp only [prefL, Bool.and_eq_true, decide_eq_true_eq] at h3 ⊢
        obtain ⟨hcz, h3'⟩ := h3
        subst hcz
        simp only [leL] at h1 h2
        by_cases hcd : c.toNat < d.toNat
        · simp [show ¬d.toNat < c.toNat by omega, hcd] at h2
        · by_cases hdc : d.toNat < c.toNat
          · simp [hcd, hdc] at h1
          · have hceq : c = d := char_toNat_inj (by omega)
            subst hceq
            simp only [Nat.lt_irrefl, if_neg, if_false] at h1 h2
            exact ⟨rfl, ih ls zs h1 h2 h3'⟩

theorem pairwise_getLast {R : String → String → Prop} (hrefl : ∀ a, R a a) :
    ∀ {K : List String} {lK : String}, K.Pairwise R → K.getLast? = some lK →
      ∀ k ∈ K, R k lK := by
  intro K
  induction K with
  | nil => intro lK _ h; cases h
  | cons x xs ih =>
    intro lK hp hl k hk
    rcases List.pairwise_cons.mp hp with ⟨hx, hxs⟩
    cases xs with
    | nil =>
      simp only [List.getLast?_singleton, Option.some.injEq] at hl
      rcases List.mem_singleton.mp hk with rfl
      rw [← hl]
      exact hrefl k
    | cons y ys =>
      have hl' : (y :: ys).getLast? = some lK := by
        rw [← hl]
        rfl
      rcases List.mem_cons.mp hk with rfl | hk'
      · exact hx lK (List.mem_of_mem_getLast? hl')
      · exact ih hxs hl' k hk'

/-- The last-retained check of the code scan agrees with the
any-retained-so-far check of the spec description, on descending input. -/
theorem keepScan_eq_keepSpecR : ∀ (xs K : List String),
    (K ++ xs).Pairwise (fun a b => geS a b = true) →
    keepScan xs K.getLast? = keepSpecR xs K := by
  intro xs
  induction xs with
  | nil => intro K _; rfl
  | cons p rest ih =>
    intro K hp
    have hcond : (match K.getLast? with
        | some l => endsSlash p && pyStartswith l p
        | none => false) =
        (endsSlash p && K.any fun q => pyStartswith q p) := by
      cases hK : K.getLast? with
      | none =>
        have : K = [] := List.getLast?_eq_none_iff.mp hK
        subst this
        simp
      | some lK =>
        cases he : endsSlash p
        · simp
        · simp only [Bool.true_and]
          have hKsplit := List.pairwise_append.mp hp
          have hlKmem : lK ∈ K := List.mem_of_mem_getLast? hK
          have hplK : leL p.data lK.data = true :=
            hKsplit.2.2 lK hlKmem p (List.mem_cons_self p rest)
          cases hs : pyStartswith lK p
          · symm
            rw [Bool.eq_false_iff]
            intro hany
            rcases List.any_eq_true.mp hany with ⟨q, hqK, hq⟩
            have hqlK : leL lK.data q.data = true :=
              pairwise_getLast (fun a => by
                  exact leL_refl a.data) hKsplit.1 hK q hqK
            have hcontr : pyStartswith lK p = true :=
              prefL_between p.data lK.data q.data hplK hqlK hq
            rw [hs] at hcontr
            cases hcontr
          · symm
            rw [List.any_eq_true]
            exact ⟨lK, hlKmem, hs⟩
    show (if _ then keepScan rest K.getLast? else p :: keepScan rest (some p)) = _
    rw [hcond, keepSpecR]
    split
    · apply ih
      refine (List.pairwise_append.mpr ⟨(List.pairwise_append.mp hp).1, ?_, ?_⟩)
      · exact (List.pairwise_cons.mp (List.pairwise_append.mp hp).2.1).2
      · intro a ha b hb
        exact (List.pairwise_append.mp hp).2.2 a ha b (List.mem_cons_of_mem p hb)
    · have hlast : some p = (K ++ [p]).getLast? := (List.getLast?_concat K).symm
      rw [hlast]
      rw [ih (K ++ [p]) (by
        have : (K ++ [p]) ++ rest = K ++ p :: rest := by simp
        rw [this]
        exact hp)]

/-- C8 refinement core: the code normalization equals the spec-worded one. -/
theorem cleanup_files_eq_spec (l : List String) :
    cleanup_files l = cleanup_files_spec l := by
  unfold cleanup_files cleanup_files_spec
  rw [cleanupGo_eq_map]
  have h := keepScan_eq_keepSpecR (sortDesc l) [] (by simpa using sortDesc_pairwise l)
  simp only [List.getLast?_eq_none_iff] at h
  rw [show ([] : List String).getLast? = none from rfl] at h
  rw [h]

/-! ## Re-normalizing a normalized list (C5) -/

/-- Between consecutive retained paths, the dropping condition fails: the
later (smaller) one is not a directory prefix of the earlier one. -/
def noRedund (a b : String) : Prop :=
  ¬(endsSlash b = true ∧ pyStartswith a b = true)

theorem keepScan_chain : ∀ (xs : List String) (last : Option String),
    List.Chain' noRedund (last.toList ++ keepScan xs last) := by
  intro xs
  induction xs with
  | nil =>
    intro last
    cases last with
    | none => simp [keepScan]
    | some l => simp [keepScan]
  | cons p rest ih =>
    intro last
    show List.Chain' noRedund (last.toList ++
      (if _ then keepScan rest last else p :: keepScan rest (some p)))
    split
    · rename_i hcond
      exact ih last
    · rename_i hcond
      cases last with
      | none => simpa using ih (some p)
      | some l =>
        simp only [Option.toList_some, List.singleton_append] at ih ⊢
        rw [List.chain'_cons]
        constructor
        · intro hpair
          refine hcond ?_
          show (endsSlash p && pyStartswith l p) = true
          rw [hpair.1, hpair.2]
          rfl
        · exact ih (some p)

theorem keepScan_sublist : ∀ (xs : List String) (last : Option String),
    List.Sublist (keepScan xs last) xs := by
  intro xs
  induction xs with
  | nil => intro last; exact List.Sublist.refl _
  | cons p rest ih =>
    intro last
    show List.Sublist (if _ then keepScan rest last else p :: keepScan rest (some p)) _
    split
    · exact List.Sublist.cons p (ih last)
    · exact List.Sublist.cons₂ p (ih (some p))

theorem slash_data (p : String) : ("/" ++ p).data = '/' :: p.data := by
  rw [String.data_append]
  rfl

theorem ne_empty_data {p : String} (hp : p ≠ "") : p.data ≠ [] := by
  intro hd
  exact hp (string_data_inj (by rw [hd]))

theorem endsSlash_slash {p : String} (hp : p ≠ "") :
    endsSlash ("/" ++ p) = endsSlash p := by
  unfold endsSlash
  rw [slash_data]
  rcases hd : p.data with _ | ⟨c, cs⟩
  · exact absurd hd (ne_empty_data hp)
  · rfl

theorem pyStartswith_slash (l p : String) :
    pyStartswith ("/" ++ l) ("/" ++ p) = pyStartswith l p := by
  unfold pyStartswith
  rw [slash_data, slash_data]
  simp [prefL]

theorem geS_slash (a b : String) : geS ("/" ++ a) ("/" ++ b) = geS a b := by
  unfold geS leS
  rw [slash_data, slash_data]
  simp [leL]

/-- Scanning an already-retained list (rooted once more) drops nothing. -/
theorem keepScan_map_slash : ∀ (ks : List String) (prev : Option String),
    List.Chain' noRedund (prev.toList ++ ks) → (∀ k ∈ ks, k ≠ "") →
    keepScan (ks.map (fun p => "/" ++ p)) (prev.map (fun p => "/" ++ p)) =
      ks.map (fun p => "/" ++ p) := by
  intro ks
  induction ks with
  | nil => intro prev _ _; rfl
  | cons k rest ih =>
    intro prev hchain hne
    have hkne : k ≠ "" := hne k (List.mem_cons_self k rest)
    have hcond : (match prev.map (fun p => "/" ++ p) with
        | some l => endsSlash ("/" ++ k) && pyStartswith l ("/" ++ k)
        | none => false) = false := by
      cases prev with
      | none => rfl
      | some l =>
        show (endsSlash ("/" ++ k) && pyStartswith ("/" ++ l) ("/" ++ k)) = false
        rw [endsSlash_slash hkne, pyStartswith_slash]
        have hnr : noRedund l k := by
          simp only [Option.toList_some, List.singleton_append] at hchain
          exact (List.chain'_cons.mp hchain).1
        cases he : endsSlash k
        · rfl
        · cases hs : pyStartswith l k
          · rfl
          · exact absurd ⟨he, hs⟩ hnr
    have hch' : List.Chain' noRedund ([k] ++ rest) := by
      cases prev with
      | none => simpa using hchain
      | some l =>
        simp only [Option.toList_some, List.singleton_append] at hchain
        simpa using (List.chain'_cons.mp hchain).2
    show (if (match prev.map (fun p => "/" ++ p) with
        | some l => endsSlash ("/" ++ k) && pyStartswith l ("/" ++ k)
        | none => false) = true then
          keepScan (rest.map (fun p => "/" ++ p)) (prev.map (fun p => "/" ++ p))
        else ("/" ++ k) :: keepScan (rest.map (fun p => "/" ++ p)) (some ("/" ++ k))) = _
    rw [hcond]
    simp only [Bool.false_eq_true, if_false]
    rw [show (some ("/" ++ k)) = (some k).map (fun p => "/" ++ p) from rfl]
    rw [ih (some k) (by simpa using hch')
      (fun x hx => hne x (List.mem_cons_of_mem k hx))]
    rfl

instance instIsAntisymmGeS : IsAntisymm String (fun a b => geS a b = true) :=
  ⟨fun _ _ h1 h2 => geS_antisymm h1 h2⟩

theorem sorted_desc_perm_eq {l1 l2 : List String}
    (hperm : List.Perm l1 l2)
    (h1 : l1.Pairwise fun a b => geS a b = true)
    (h2 : l2.Pairwise fun a b => geS a b = true) : l1 = l2 :=
  List.eq_of_perm_of_sorted hperm h1 h2

/-- C5 (amended): re-normalizing an already-normalized file list of nonempty
paths drops nothing and keeps the order, but roots every path once more. -/
theorem cleanup_files_second_pass (l : List String) (hl : ∀ p ∈ l, p ≠ "") :
    cleanup_files (cleanup_files l) =
      (cleanup_files l).map (fun p => "/" ++ p) := by
  have hxs : (sortDesc l).Pairwise (fun a b => geS a b = true) := sortDesc_pairwise l
  have hclean : cleanup_files l =
      ((keepScan (sortDesc l) none).map (fun p => "/" ++ p)).reverse := by
    unfold cleanup_files
    rw [cleanupGo_eq_map]
  have hks_sorted : (keepScan (sortDesc l) none).Pairwise
      (fun a b => geS a b = true) :=
    hxs.sublist (keepScan_sublist (sortDesc l) none)
  have hmap_sorted : ((keepScan (sortDesc l) none).map (fun p => "/" ++ p)).Pairwise
      (fun a b => geS a b = true) :=
    List.Pairwise.map (fun p => "/" ++ p)
      (fun a b h => by
        show geS ("/" ++ a) ("/" ++ b) = true
        rw [geS_slash]
        exact h)
      hks_sorted
  have hks_ne : ∀ k ∈ keepScan (sortDesc l) none, k ≠ "" := by
    intro k hk
    apply hl
    have hmem : k ∈ sortDesc l := (keepScan_sublist (sortDesc l) none).subset hk
    exact (sortDesc_perm l).subset hmem
  have hchain : List.Chain' noRedund (keepScan (sortDesc l) none) := by
    simpa using keepScan_chain (sortDesc l) none
  rw [hclean]
  unfold cleanup_files
  have hsort2 : sortDesc (((keepScan (sortDesc l) none).map (fun p => "/" ++ p)).reverse) =
      (keepScan (sortDesc l) none).map (fun p => "/" ++ p) :=
    sorted_desc_perm_eq
      ((sortDesc_perm _).trans (List.reverse_perm _))
      (sortDesc_pairwise _) hmap_sorted
  rw [hsort2, cleanupGo_eq_map]
  have hnodrop := keepScan_map_slash (keepScan (sortDesc l) none) none
    (by simpa using hchain) hks_ne
  simp only [Option.map_none'] at hnodrop
  rw [hnodrop, List.map_reverse]

theorem cleanup_files_ascending (l : List String) :
    (cleanup_files l).Pairwise (fun a b => leS a b = true) := by
  unfold cleanup_files
  rw [cleanupGo_eq_map, List.pairwise_reverse]
  exact List.Pairwise.map (fun p => "/" ++ p)
    (fun a b h => by
      show geS ("/" ++ a) ("/" ++ b) = true
      rw [geS_slash]
      exact h)
    ((sortDesc_pairwise l).sublist (keepScan_sublist (sortDesc l) none))

/-- C8 (amended): `cleanup_files` sorts the paths descending
lexicographically, drops every path ending in `/` that is a prefix of a more
specific path retained earlier in that reverse scan, prefixes every retained
path with a leading `/`, and returns them in ascending lexicographic order
(which restores the input order only when the input was already sorted); a
directory entry with no listed descendant is retained.  The concrete
examples of the claim hold. -/
theorem cleanup_files_normalization :
    (∀ l, cleanup_files l = cleanup_files_spec l) ∧
    (∀ l, (cleanup_files l).Pairwise (fun a b => leS a b = true)) ∧
    cleanup_files ["a/", "a/b.txt", "a/c/", "a/c/d.txt"] =
      ["/a/b.txt", "/a/c/d.txt"] ∧
    cleanup_files ["empty/"] = ["/empty/"] :=
  ⟨cleanup_files_eq_spec, cleanup_files_ascending, by decide, by decide⟩

/-- C8 (counterexample): the original order is not restored for unsorted
input: `["b", "a"]` normalizes to `["/a", "/b"]`, not `["/b", "/a"]`. -/
theorem cleanup_files_not_original_order :
    cleanup_files ["b", "a"] = ["/a", "/b"] ∧
    cleanup_files ["b", "a"] ≠ ["/b", "/a"] :=
  ⟨by decide, by decide⟩

/-- C5 (counterexample): `cleanup_files` is not idempotent: every pass
prepends another `/` to each retained path. -/
theorem cleanup_files_not_idempotent :
    cleanup_files ["a"] = ["/a"] ∧
    cleanup_files (cleanup_files ["a"]) = ["//a"] ∧
    cleanup_files (cleanup_files ["a"]) ≠ cleanup_files ["a"] :=
  ⟨by decide, by decide, by decide⟩

/-- C5 (witness): the amended statement evaluated at a concrete file list. -/
theorem cleanup_files_second_pass_witness :
    cleanup_files (cleanup_files ["a/", "a/b.txt"]) =
      (cleanup_files ["a/", "a/b.txt"]).map (fun p => "/" ++ p) :=
  cleanup_files_second_pass ["a/", "a/b.txt"] (by decide)

/-! ## `extract_upstream_version` (src/main.py lines 1013-1015) -/

theorem splitFirst_shorter {sep : Char} : ∀ {l a b : List Char},
    splitFirst sep l = some (a, b) → b.length < l.length := by
  intro l
  induction l with
  | nil => intro a b h; cases h
  | cons c rest ih =>
    intro a b h
    rw [splitFirst] at h
    split at h
    · rw [Option.some.injEq, Prod.mk.injEq] at h
      rw [← h.2]
      simp
    · split at h
      · cases h
      · rename_i a' b' heq
        rw [Option.some.injEq, Prod.mk.injEq] at h
        rw [← h.2]
        exact Nat.lt_succ_of_lt (ih heq)

theorem splitFirst_decomp {sep : Char} : ∀ {l a b : List Char},
    splitFirst sep l = some (a, b) → l = a ++ sep :: b ∧ sep ∉ a := by
  intro l
  induction l with
  | nil => intro a b h; cases h
  | cons c rest ih =>
    intro a b h
    rw [splitFirst] at h
    split at h
    · rename_i hc
      rw [Option.some.injEq, Prod.mk.injEq] at h
      rw [← h.1, ← h.2, hc]
      simp
    · rename_i hc
      split at h
      · cases h
      · rename_i a' b' heq
        rw [Option.some.injEq, Prod.mk.injEq] at h
        obtain ⟨hd, hnm⟩ := ih heq
        rw [← h.1, ← h.2]
        refine ⟨by rw [List.cons_append, ← hd], ?_⟩
        intro hmem
        rcases List.mem_cons.mp hmem with h' | h'
        · exact hc h'.symm
        · exact hnm h'

/-- Python `s.split(sep)` (split on every occurrence). -/
def pySplitAll (sep : Char) (s : List Char) : List (List Char) :=
  match h : splitFirst sep s with
  | none => [s]
  | some (a, b) => a :: pySplitAll sep b
termination_by s.length
decreasing_by exact splitFirst_shorter h

/-- Python `s.split(sep, 1)`. -/
def pySplit1 (sep : Char) (s : List Char) : List (List Char) :=
  match splitFirst sep s with
  | none => [s]
  | some (a, b) => [a, b]

/-- Python `s.rsplit(sep, 1)`. -/
def pyRsplit1 (sep : Char) (s : List Char) : List (List Char) :=
  match splitLast sep s with
  | none => [s]
  | some (a, b) => [a, b]

/-- Python `s.rsplit(sep)` (split on every occurrence, scanning from the
right). -/
def pyRsplitAll (sep : Char) (s : List Char) : List (List Char) :=
  ((pySplitAll sep s.reverse).map List.reverse).reverse

/-- `extract_upstream_version(version)` from src/main.py:
`version.rsplit("-")[0].split("+", 1)[0].split("~", 1)[-1].split(":", 1)[-1]`. -/
def extract_upstream_version (version : String) : String :=
  String.mk ((pySplit1 ':'
    ((pySplit1 '~'
      ((pySplit1 '+'
        ((pyRsplitAll '-' version.data).headD [])).headD [])).getLastD [])).getLastD [])

/-- The claim wording: strip after the last `-`, then after the first `+`,
then take the substring after the last `~` and the last `:`. -/
def extract_upstream_version_claim (version : String) : String :=
  String.mk ((pyRsplit1 ':'
    ((pyRsplit1 '~'
      ((pySplit1 '+'
        ((pyRsplit1 '-' version.data).headD [])).headD [])).getLastD [])).getLastD [])

/-- The substring before the first occurrence of `sep` (whole string when
absent). -/
def before_first (sep : Char) (s : List Char) : List Char :=
  s.takeWhile (fun c => c ≠ sep)

/-- The substring after the first occurrence of `sep` (whole string when
absent). -/
def after_first (sep : Char) (s : List Char) : List Char :=
  if sep ∈ s then (s.dropWhile (fun c => c ≠ sep)).drop 1 else s

/-- The amended wording: strip after the first `-`, then after the first
`+`, then take the substring after the first `~` and the first `:`. -/
def extract_upstream_version_amended (version : String) : String :=
  String.mk (after_first ':' (after_first '~'
    (before_first '+' (before_first '-' version.data))))

theorem takeWhile_ne_of_not_mem {sep : Char} : ∀ {s : List Char}, sep ∉ s →
    s.takeWhile (fun c => c ≠ sep) = s := by
  intro s hs
  apply takeWhile_all_eq
  intro x hx
  simp only [ne_eq, decide_eq_true_eq]
  intro hxe
  exact hs (hxe ▸ hx)

theorem takeWhile_ne_append_stop {sep : Char} : ∀ (u w : List Char), sep ∈ u →
    (u ++ w).takeWhile (fun c => c ≠ sep) = u.takeWhile (fun c => c ≠ sep) := by
  intro u
  induction u with
  | nil => intro w h; cases h
  | cons x xs ih =>
    intro w hmem
    rw [List.cons_append, List.takeWhile_cons, List.takeWhile_cons]
    by_cases hx : x = sep
    · simp [hx]
    · have hmem' : sep ∈ xs := by
        rcases List.mem_cons.mp hmem with h' | h'
        · exact absurd h'.symm hx
        · exact h'
      simp [hx]
      simpa using ih w hmem'

theorem pySplitAll_ne_nil (sep : Char) (s : List Char) :
    pySplitAll sep s ≠ [] := by
  rw [pySplitAll]
  split <;> simp

theorem pySplitAll_headD (sep : Char) (s : List Char) :
    (pySplitAll sep s).headD [] = s.takeWhile (fun c => c ≠ sep) := by
  rw [pySplitAll]
  cases h : splitFirst sep s with
  | none =>
    by_cases hm : sep ∈ s
    · rw [splitFirst_of_mem hm] at h
      cases h
    · rw [takeWhile_ne_of_not_mem hm]
      rfl
  | some ab =>
    rcases ab with ⟨a, b⟩
    have hm : sep ∈ s := by
      by_contra hm
      rw [splitFirst_of_not_mem hm] at h
      cases h
    rw [splitFirst_of_mem hm] at h
    rw [Option.some.injEq, Prod.mk.injEq] at h
    simp [← h.1]

theorem getLastD_of_ne_nil {t : List (List Char)} (h : t ≠ []) (d1 d2 : List Char) :
    t.getLastD d1 = t.getLastD d2 := by
  rw [List.getLastD_eq_getLast?, List.getLastD_eq_getLast?]
  cases ht : t.getLast? with
  | none => exact absurd (List.getLast?_eq_none_iff.mp ht) h
  | some x => rfl

theorem pySplitAll_getLastD (sep : Char) : ∀ n (s : List Char), s.length ≤ n →
    (pySplitAll sep s).getLastD [] =
      (s.reverse.takeWhile (fun c => c ≠ sep)).reverse := by
  intro n
  induction n with
  | zero =>
    intro s hs
    have : s = [] := List.length_eq_zero.mp (Nat.le_zero.mp hs)
    subst this
    rw [pySplitAll]
    rfl
  | succ n ih =>
    intro s hs
    rw [pySplitAll]
    cases h : splitFirst sep s with
    | none =>
      have hm : sep ∉ s := by
        by_contra hm
        rw [splitFirst_of_mem hm] at h
        cases h
      have hm' : sep ∉ s.reverse := fun hh => hm (List.mem_reverse.mp hh)
      rw [takeWhile_ne_of_not_mem hm']
      simp
    | some ab =>
      rcases ab with ⟨a, b⟩
      obtain ⟨hdec, _⟩ := splitFirst_decomp h
      have hlen : b.length ≤ n := by
        have := splitFirst_shorter h
        omega
      have hrev : s.reverse = b.reverse ++ sep :: a.reverse := by
        rw [hdec]
        simp
      rw [List.getLastD_cons,
        getLastD_of_ne_nil (pySplitAll_ne_nil sep b) a [],
        ih b hlen, hrev]
      by_cases hb : sep ∈ b.reverse
      · rw [takeWhile_ne_append_stop _ _ hb]
      · rw [takeWhile_append_all _ (fun x hx => by
          simp only [ne_eq, decide_eq_true_eq]
          intro hxe
          exact hb (hxe ▸ hx))]
        rw [takeWhile_ne_of_not_mem hb, List.takeWhile_cons]
        simp

theorem pyRsplitAll_headD (sep : Char) (s : List Char) :
    (pyRsplitAll sep s).headD [] = before_first sep s := by
  unfold pyRsplitAll before_first
  rw [List.headD_eq_head?, List.head?_reverse, List.getLast?_map]
  cases hgl : (pySplitAll sep s.reverse).getLast? with
  | none =>
    exact absurd (List.getLast?_eq_none_iff.mp hgl) (pySplitAll_ne_nil sep s.reverse)
  | some x =>
    have hx : (pySplitAll sep s.reverse).getLastD [] = x := by
      rw [List.getLastD_eq_getLast?, hgl]
      rfl
    rw [pySplitAll_getLastD sep s.reverse.length s.reverse (Nat.le_refl _)] at hx
    simp only [List.reverse_reverse] at hx
    rw [← hx]
    simp

theorem pySplit1_headD (sep : Char) (s : List Char) :
    (pySplit1 sep s).headD [] = before_first sep s := by
  unfold pySplit1 before_first
  by_cases hm : sep ∈ s
  · rw [splitFirst_of_mem hm]
    rfl
  · rw [splitFirst_of_not_mem hm, takeWhile_ne_of_not_mem hm]
    rfl

theorem pySplit1_getLastD (sep : Char) (s : List Char) :
    (pySplit1 sep s).getLastD [] = after_first sep s := by
  unfold pySplit1 after_first
  by_cases hm : sep ∈ s
  · rw [splitFirst_of_mem hm, if_pos hm]
    rfl
  · rw [splitFirst_of_not_mem hm, if_neg hm]
    rfl

theorem extract_upstream_version_eq_amended (v : String) :
    extract_upstream_version v = extract_upstream_version_amended v := by
  unfold extract_upstream_version extract_upstream_version_amended
  rw [pyRsplitAll_headD, pySplit1_headD, pySplit1_getLastD, pySplit1_getLastD]

/-- C6 (amended): `extract_upstream_version` strips the release suffix after
the FIRST `-`, then any build-metadata suffix after the first `+`, then
takes the substring after the FIRST `~` and after the FIRST `:` when
present; the concrete examples of the claim hold. -/
theorem extract_upstream_version_first_separators :
    (∀ v : String, extract_upstream_version v = extract_upstream_version_amended v) ∧
    extract_upstream_version "2:1.5.0-3" = "1.5.0" ∧
    extract_upstream_version "1.2.3+git20200101-1" = "1.2.3" :=
  ⟨extract_upstream_version_eq_amended,
    by rw [extract_upstream_version_eq_amended]; decide,
    by rw [extract_upstream_version_eq_amended]; decide⟩

/-- C6 (counterexample): on `"1-2-3"` the code keeps the part before the
FIRST `-` (giving `"1"`), while the claim
wording (after the last `-`) would keep `"1-2"`. -/
theorem extract_upstream_version_not_last_dash :
    extract_upstream_version "1-2-3" = "1" ∧
    extract_upstream_version_claim "1-2-3" = "1-2" ∧
    extract_upstream_version "1-2-3" ≠ extract_upstream_version_claim "1-2-3" :=
  ⟨by rw [extract_upstream_version_eq_amended]; decide,
    by decide,
    by rw [extract_upstream_version_eq_amended]; decide⟩

/-! ## Package and Source records (src/main.py lines 287-601) -/

/-- Python `str.strip()`. -/
def pyStrip (l : List Char) : List Char :=
  ((l.dropWhile Char.isWhitespace).reverse.dropWhile Char.isWhitespace).reverse

/-- A dependency comparison operator character. -/
def isOpChar (c : Char) : Bool := c = '<' || c = '>' || c = '='

/-- `re.split("([<>=]+)", d, 1)` into stripped name and stripped constraint
(operator run plus remainder). -/
def split_dep (d : List Char) : String × String :=
  (String.mk (pyStrip (d.takeWhile (fun c => !isOpChar c))),
    String.mk (pyStrip (d.dropWhile (fun c => !isOpChar c))))

/-- `Package.split_depends`. -/
def split_depends (deps : List String) : List (String × String) :=
  deps.map (fun d => split_dep d.data)

/-- One optional dependency: split on the first `:` into name and free-text
reason. -/
def split_opt1 (d : List Char) : String × String :=
  if ':' ∈ d then
    (String.mk (pyStrip (d.takeWhile (fun c => c ≠ ':'))),
      String.mk (pyStrip ((d.dropWhile (fun c => c ≠ ':')).drop 1)))
  else (String.mk (pyStrip d), "")

/-- `Package.split_opt`. -/
def split_opt (deps : List String) : List (String × String) :=
  deps.map (fun d => split_opt1 d.data)

/-- Python `dict()` built from pairs: first occurrence fixes the position,
later occurrences overwrite the value. -/
def dictOfPairs (l : List (String × String)) : List (String × String) :=
  l.foldl (fun acc kv =>
    if acc.any (fun x => x.1 = kv.1) then
      acc.map (fun x => if x.1 = kv.1 then (x.1, kv.2) else x)
    else acc ++ [kv]) []

/-- UTF-8 encoding of one character. -/
def utf8Bytes (c : Char) : List Nat :=
  let n := c.toNat
  if n < 128 then [n]
  else if n < 2048 then [192 + n / 64, 128 + n % 64]
  else if n < 65536 then [224 + n / 4096, 128 + n / 64 % 64, 128 + n % 64]
  else [240 + n / 262144, 128 + n / 4096 % 64, 128 + n / 64 % 64, 128 + n % 64]

/-- Bytes `urllib.parse.quote` leaves unescaped (letters, digits, `_.-~`
and the default safe `/`). -/
def quoteSafeByte (b : Nat) : Bool :=
  (65 ≤ b && b ≤ 90) || (97 ≤ b && b ≤ 122) || (48 ≤ b && b ≤ 57) ||
    b = 95 || b = 46 || b = 45 || b = 126 || b = 47

/-- Uppercase hexadecimal digit. -/
def hexDigit (n : Nat) : Char :=
  if n < 10 then Char.ofNat (48 + n) else Char.ofNat (55 + n)

/-- Percent-encode one byte unless it is safe. -/
def quoteByte (b : Nat) : List Char :=
  if quoteSafeByte b then [Char.ofNat b] else ['%', hexDigit (b / 16), hexDigit (b % 16)]

/-- `urllib.parse.quote(s)` with the default safe characters. -/
def pyQuote (s : String) : String :=
  String.mk (((s.data.map utf8Bytes).flatten.map quoteByte).flatten)

/-- One parsed `%KEY%` description block, as consumed by
`Package.from_desc` / `Source.from_desc` (required keys as fields, optional
keys with their Python defaults). -/
structure Desc where
  builddate : String
  csize : String
  depends : List String := []
  filename : String
  files : List String := []
  isize : String
  makedepends : List String := []
  md5sum : String
  name : String
  pgpsig : String := ""
  sha256sum : String
  arch : String
  provides : List String := []
  conflicts : List String := []
  replaces : List String := []
  version : String
  base : Option String := none
  desc : String := ""
  groups : List String := []
  licenses : List String := []
  optdepends : List String := []
  checkdepends : List String := []
  packager : String
  url : String := ""
deriving DecidableEq, Repr, Inhabited

/-- The Package identity key `(repo, repo_variant, name, arch, fileurl)`. -/
abbrev PkgKey := String × String × String × String × String

/-- The `Package` record (the mutable `rdepends` list lives outside the
record and is computed by `rdepends_of` below). -/
structure Pkg where
  builddate : Nat
  csize : String
  depends : List (String × String)
  checkdepends : List (String × String)
  filename : String
  files : List String
  isize : String
  makedepends : List (String × String)
  md5sum : String
  name : String
  pgpsig : String
  sha256sum : String
  arch : String
  fileurl : String
  repo : String
  repo_variant : String
  provides : List (String × String)
  conflicts : List String
  replaces : List String
  version : String
  base : String
  desc : String
  groups : List String
  licenses : List String
  optdepends : List (String × String)
deriving DecidableEq, Repr, Inhabited

/-- `Package.key`. -/
def Pkg.key (p : Pkg) : PkgKey :=
  (p.repo, p.repo_variant, p.name, p.arch, p.fileurl)

/-- `Package.from_desc` / `Package.__init__`. -/
def Pkg.from_desc (d : Desc) (base : String)
    (base_url repo repo_variant : String) : Pkg :=
  { builddate := str_to_int d.builddate.data
    csize := d.csize
    depends := split_depends d.depends
    checkdepends := split_depends d.checkdepends
    filename := d.filename
    files := cleanup_files d.files
    isize := d.isize
    makedepends := split_depends d.makedepends
    md5sum := d.md5sum
    name := d.name
    pgpsig := d.pgpsig
    sha256sum := d.sha256sum
    arch := d.arch
    fileurl := base_url ++ "/" ++ pyQuote d.filename
    repo := repo
    repo_variant := repo_variant
    provides := dictOfPairs (split_depends d.provides)
    conflicts := d.conflicts
    replaces := d.replaces
    version := d.version
    base := base
    desc := d.desc
    groups := d.groups
    licenses := d.licenses
    optdepends := split_opt d.optdepends }

/-- The `Source` record; `packages` is its insertion-ordered key→Package
map. -/
structure SourceM where
  name : String
  desc : String
  url : String
  packager : String
  repo : String
  repo_variant : String
  packages : List (PkgKey × Pkg)
deriving DecidableEq, Repr, Inhabited

/-- Python `s.split(sep, n)`. -/
def pySplitN (sep : Char) : Nat → List Char → List (List Char)
  | 0, s => [s]
  | n + 1, s =>
    match splitFirst sep s with
    | none => [s]
    | some (a, b) => a :: pySplitN sep n b

/-- `Source.from_desc`: explicit `%BASE%` if present, else derived from the
package name by stripping the family prefix. -/
def SourceM.from_desc (d : Desc) (repo repo_variant : String) : SourceM :=
  let base :=
    match d.base with
    | some b => b
    | none =>
      if pyStartswith repo "mingw" then
        "mingw-w64-" ++ String.mk ((pySplitN '-' 3 d.name.data).getLastD [])
      else d.name
  { name := base, desc := d.desc, url := d.url, packager := d.packager,
    repo := repo, repo_variant := repo_variant, packages := [] }

/-- `Source.add_desc`: build the Package and insert it;
`assert p.key not in self.packages` is modelled as `none` on a duplicate
key. -/
def SourceM.add_desc (s : SourceM) (d : Desc) (base_url : String) :
    Option SourceM :=
  let p := Pkg.from_desc d s.name base_url s.repo s.repo_variant
  if s.packages.any (fun kp => kp.1 = p.key) then none
  else some { s with packages := s.packages ++ [(p.key, p)] }

def lookupA (m : List (String × SourceM)) (k : String) : Option SourceM :=
  (m.find? (fun x => x.1 = k)).map (fun x => x.2)

def replaceA (m : List (String × SourceM)) (k : String) (v : SourceM) :
    List (String × SourceM) :=
  m.map (fun x => if x.1 = k then (k, v) else x)

/-- The desc-processing loop of `parse_repo` (lines 566-599): each parsed
package block is routed to its (possibly new) Source and added with
`add_desc`; a duplicate Package key aborts the parse (`none`). -/
def parse_repo_descs (repo repo_variant base_url : String) :
    List Desc → List (String × SourceM) → Option (List (String × SourceM))
  | [], acc => some acc
  | d :: rest, acc =>
    let source := SourceM.from_desc d repo repo_variant
    match lookupA acc source.name with
    | some s0 =>
      match s0.add_desc d base_url with
      | none => none
      | some s1 =>
        parse_repo_descs repo repo_variant base_url rest (replaceA acc source.name s1)
    | none =>
      match source.add_desc d base_url with
      | none => none
      | some s1 =>
        parse_repo_descs repo repo_variant base_url rest (acc ++ [(source.name, s1)])

/-- Python `dict.update`: existing keys are overwritten in place, new keys
are appended. -/
def dictUpdateP (old new : List (PkgKey × Pkg)) : List (PkgKey × Pkg) :=
  new.foldl (fun acc kv =>
    if acc.any (fun x => x.1 = kv.1) then
      acc.map (fun x => if x.1 = kv.1 then kv else x)
    else acc ++ [kv]) old

/-- The cross-repository merge of `update_source` (lines 1325-1331):
sources of the same name are merged by `packages.update`, which silently
overwrites duplicate keys. -/
def merge_sources (maps : List (List (String × SourceM))) :
    List (String × SourceM) :=
  maps.foldl (fun final m =>
    m.foldl (fun f nv =>
      match lookupA f nv.1 with
      | some s0 =>
        replaceA f nv.1 { s0 with packages := dictUpdateP s0.packages nv.2.packages }
      | none => f ++ [nv]) final) []

/-- `update_source`: merge all repositories and publish the sources sorted
by name. -/
def update_source_model (maps : List (List (String × SourceM))) : List SourceM :=
  (sortByLe (fun a b => leS a.1 b.1) (merge_sources maps)).map (fun x => x.2)

/-- Python `set(...)` modelled as order-preserving deduplication. -/
def dedupKeepFirst (l : List String) : List String :=
  l.foldl (fun acc x => if x ∈ acc then acc else acc ++ [x]) []

/-- `Source.version`:
`sorted(set(versions), key=cmp_to_key(vercmp), reverse=True)[0]`; `none`
exactly when the package map is empty (the Python code would raise
`IndexError`). -/
def SourceM.version (s : SourceM) : Option String :=
  (sortByLe (fun a b => vercmp a b ≠ -1)
    (dedupKeepFirst (s.packages.map (fun kp => kp.2.version)))).head?

/-- `Source.date`: `sorted([p.builddate ...])[-1]`; `none` exactly when the
package map is empty. -/
def SourceM.date (s : SourceM) : Option Nat :=
  (sortByLe (fun a b => Nat.ble a b) (s.packages.map (fun kp => kp.2.builddate))).getLast?

/-! ## Reverse-dependency indexing `fill_rdepends` (src/main.py lines 1357-1382) -/

/-- All packages of all sources, in iteration order. -/
def all_packages (sources : List SourceM) : List Pkg :=
  (sources.map (fun s => s.packages.map (fun kp => kp.2))).flatten

/-- `deps.setdefault(n, set()).add(e)`: add entry `e` (a package index and
a relation kind) to the per-name entry set, appending a fresh name at the
end (Python dict insertion order). -/
def depsAdd : List (String × List (Nat × String)) → String → (Nat × String) →
    List (String × List (Nat × String))
  | [], n, e => [(n, [e])]
  | (k, v) :: rest, n, e =>
    if k = n then (k, if e ∈ v then v else v ++ [e]) :: rest
    else (k, v) :: depsAdd rest n e

/-- `deps.get(n, set())`. -/
def depsGet : List (String × List (Nat × String)) → String → List (Nat × String)
  | [], _ => []
  | (k, v) :: rest, n => if k = n then v else depsGet rest n

/-- Index the four dependency kinds of one package. -/
def depsAddPkg (m : List (String × List (Nat × String))) (i : Nat) (p : Pkg) :
    List (String × List (Nat × String)) :=
  let m1 := p.depends.foldl (fun m nr => depsAdd m nr.1 (i, "")) m
  let m2 := p.makedepends.foldl (fun m nr => depsAdd m nr.1 (i, "make")) m1
  let m3 := p.optdepends.foldl (fun m nr => depsAdd m nr.1 (i, "optional")) m2
  p.checkdepends.foldl (fun m nr => depsAdd m nr.1 (i, "check")) m3

/-- The dependency-name → dependents index built by the first loop of
`fill_rdepends`. -/
def build_deps (sources : List SourceM) : List (String × List (Nat × String)) :=
  ((all_packages sources).enum).foldl (fun m ip => depsAddPkg m ip.1 ip.2) []

/-- The package at flat index `i`. -/
def pkgAt (sources : List SourceM) (i : Nat) : Pkg :=
  ((all_packages sources).get? i).getD default

/-- String comparison as an Int sign, for tuple sort keys. -/
def cmpS (a b : String) : Int := cmpL a.data b.data

/-- Lexicographic combination of componentwise comparison results. -/
def lexCmp : List Int → Int
  | [] => 0
  | c :: rest => if c ≠ 0 then c else lexCmp rest

/-- The componentwise comparisons of the sort key `(e[0].key, e[1])`. -/
def rdKeyCmps (sources : List SourceM) (a b : Nat × String) : List Int :=
  [cmpS (pkgAt sources a.1).repo (pkgAt sources b.1).repo,
    cmpS (pkgAt sources a.1).repo_variant (pkgAt sources b.1).repo_variant,
    cmpS (pkgAt sources a.1).name (pkgAt sources b.1).name,
    cmpS (pkgAt sources a.1).arch (pkgAt sources b.1).arch,
    cmpS (pkgAt sources a.1).fileurl (pkgAt sources b.1).fileurl,
    cmpS a.2 b.2]

/-- Comparison by the sort key `(e[0].key, e[1])` (tuples of strings compare
lexicographically). -/
def rdCmp (sources : List SourceM) (a b : Nat × String) : Int :=
  lexCmp (rdKeyCmps sources a b)

/-- Boolean order for the rdepends sort. -/
def rdLe (sources : List SourceM) (a b : Nat × String) : Bool :=
  rdCmp sources a b ≠ 1

/-- The rdepends list `fill_rdepends` assigns to package `p`: entries for
its own name, then for every provides alias (list concatenation, not
union), sorted by (dependent package key, kind), then filtered by
repo_variant when `p` has one. -/
def rdepends_of (sources : List SourceM) (p : Pkg) : List (Nat × String) :=
  let deps := build_deps sources
  let rd := p.provides.foldl (fun acc prov => acc ++ depsGet deps prov.1)
    (depsGet deps p.name)
  let srd := sortByLe (rdLe sources) rd
  if p.repo_variant ≠ "" then
    srd.filter (fun e => (pkgAt sources e.1).repo_variant = p.repo_variant ||
      (pkgAt sources e.1).repo_variant = "")
  else srd

/-! ## Reverse-dependency round trip (C7) -/

theorem mem_depsGet_depsAdd :
    ∀ (m : List (String × List (Nat × String))) (g : String) (f : Nat × String)
      (n : String) (e : Nat × String),
    e ∈ depsGet (depsAdd m g f) n ↔ (e ∈ depsGet m n ∨ (n = g ∧ e = f)) := by
  intro m
  induction m with
  | nil =>
    intro g f n e
    show e ∈ (if g = n then [f] else []) ↔ (e ∈ ([] : List (Nat × String)) ∨ _)
    by_cases hg : g = n
    · subst hg
      simp
    · have : ¬(n = g) := fun hh => hg hh.symm
      simp [hg, this]
  | cons kv rest ih =>
    intro g f n e
    rcases kv with ⟨k, v⟩
    rw [depsAdd]
    by_cases hk : k = g
    · rw [if_pos hk]
      show e ∈ (if k = n then (if f ∈ v then v else v ++ [f]) else depsGet rest n) ↔ _
      by_cases hkn : k = n
      · rw [if_pos hkn]
        have hng : n = g := hkn ▸ hk
        show _ ↔ (e ∈ depsGet ((k, v) :: rest) n ∨ _)
        rw [show depsGet ((k, v) :: rest) n = v from by rw [depsGet, if_pos hkn]]
        by_cases hf : f ∈ v
        · rw [if_pos hf]
          constructor
          · intro h; exact Or.inl h
          · rintro (h | ⟨_, rfl⟩)
            · exact h
            · exact hf
        · rw [if_neg hf]
          rw [List.mem_append, List.mem_singleton]
          constructor
          · rintro (h | h)
            · exact Or.inl h
            · exact Or.inr ⟨hng, h⟩
          · rintro (h | ⟨_, rfl⟩)
            · exact Or.inl h
            · exact Or.inr rfl
      · rw [if_neg hkn]
        rw [show depsGet ((k, v) :: rest) n = depsGet rest n from by
          rw [depsGet, if_neg hkn]]
        have hng : ¬(n = g) := fun hh => hkn (hh ▸ hk)
        simp [hng]
    · rw [if_neg hk]
      show e ∈ depsGet ((k, v) :: depsAdd rest g f) n ↔ _
      by_cases hkn : k = n
      · rw [show depsGet ((k, v) :: depsAdd rest g f) n = v from by
          rw [depsGet, if_pos hkn]]
        rw [show depsGet ((k, v) :: rest) n = v from by rw [depsGet, if_pos hkn]]
        have hng : ¬(n = g) := fun hh => hk (hkn.symm ▸ hh.symm ▸ rfl)
        simp [hng]
      · rw [show depsGet ((k, v) :: depsAdd rest g f) n = depsGet (depsAdd rest g f) n from by
          rw [depsGet, if_neg hkn]]
        rw [show depsGet ((k, v) :: rest) n = depsGet rest n from by
          rw [depsGet, if_neg hkn]]
        exact ih g f n e

theorem mem_depsGet_depsAdd_of_mem {m : List (String × List (Nat × String))}
    {n : String} {e : Nat × String} (g : String) (f : Nat × String)
    (h : e ∈ depsGet m n) : e ∈ depsGet (depsAdd m g f) n :=
  (mem_depsGet_depsAdd m g f n e).mpr (Or.inl h)

theorem mem_depsGet_depsAdd_self (m : List (String × List (Nat × String)))
    (n : String) (e : Nat × String) : e ∈ depsGet (depsAdd m n e) n :=
  (mem_depsGet_depsAdd m n e n e).mpr (Or.inr ⟨rfl, rfl⟩)

theorem foldl_depsAdd_mono (kind : String) (i : Nat)
    (l : List (String × String)) :
    ∀ (m : List (String × List (Nat × String))) {n : String} {e : Nat × String},
    e ∈ depsGet m n →
    e ∈ depsGet (l.foldl (fun m nr => depsAdd m nr.1 (i, kind)) m) n := by
  induction l with
  | nil => intro m n e h; exact h
  | cons nr rest ih =>
    intro m n e h
    exact ih _ (mem_depsGet_depsAdd_of_mem nr.1 (i, kind) h)

theorem foldl_depsAdd_adds (kind : String) (i : Nat)
    (l : List (String × String)) :
    ∀ (m : List (String × List (Nat × String))) {n r : String},
    (n, r) ∈ l →
    (i, kind) ∈ depsGet (l.foldl (fun m nr => depsAdd m nr.1 (i, kind)) m) n := by
  induction l with
  | nil => intro m n r h; cases h
  | cons nr rest ih =>
    intro m n r h
    rcases List.mem_cons.mp h with h' | h'
    · subst h'
      exact foldl_depsAdd_mono kind i rest _
        (mem_depsGet_depsAdd_self m (n, r).1 (i, kind))
    · exact ih _ h'

theorem depsAddPkg_mono (i : Nat) (p : Pkg)
    (m : List (String × List (Nat × String))) {n : String} {e : Nat × String}
    (h : e ∈ depsGet m n) : e ∈ depsGet (depsAddPkg m i p) n := by
  unfold depsAddPkg
  exact foldl_depsAdd_mono _ _ _ _
    (foldl_depsAdd_mono _ _ _ _
      (foldl_depsAdd_mono _ _ _ _
        (foldl_depsAdd_mono _ _ _ _ h)))

/-- The four dependency kinds of one package, as (kind, split names). -/
def depOfKind (p : Pkg) (n : String) (kind : String) : Prop :=
  (kind = "" ∧ n ∈ p.depends.map (fun nr => nr.1)) ∨
  (kind = "make" ∧ n ∈ p.makedepends.map (fun nr => nr.1)) ∨
  (kind = "optional" ∧ n ∈ p.optdepends.map (fun nr => nr.1)) ∨
  (kind = "check" ∧ n ∈ p.checkdepends.map (fun nr => nr.1))

theorem depsAddPkg_adds (i : Nat) (p : Pkg)
    (m : List (String × List (Nat × String))) {n kind : String}
    (h : depOfKind p n kind) : (i, kind) ∈ depsGet (depsAddPkg m i p) n := by
  unfold depsAddPkg
  rcases h with ⟨hk, hn⟩ | ⟨hk, hn⟩ | ⟨hk, hn⟩ | ⟨hk, hn⟩ <;>
    subst hk <;>
      rcases List.mem_map.mp hn with ⟨nr, hnr, hnr1⟩
  · refine foldl_depsAdd_mono _ _ _ _
      (foldl_depsAdd_mono _ _ _ _ (foldl_depsAdd_mono _ _ _ _ ?_))
    rw [← hnr1]
    rcases nr with ⟨n1, r1⟩
    exact foldl_depsAdd_adds "" i p.depends _ hnr
  · refine foldl_depsAdd_mono _ _ _ _ (foldl_depsAdd_mono _ _ _ _ ?_)
    rw [← hnr1]
    rcases nr with ⟨n1, r1⟩
    exact foldl_depsAdd_adds "make" i p.makedepends _ hnr
  · refine foldl_depsAdd_mono _ _ _ _ ?_
    rw [← hnr1]
    rcases nr with ⟨n1, r1⟩
    exact foldl_depsAdd_adds "optional" i p.optdepends _ hnr
  · rw [← hnr1]
    rcases nr with ⟨n1, r1⟩
    exact foldl_depsAdd_adds "check" i p.checkdepends _ hnr

theorem foldl_depsAddPkg_mono (L : List (Nat × Pkg)) :
    ∀ (m : List (String × List (Nat × String))) {n : String} {e : Nat × String},
    e ∈ depsGet m n →
    e ∈ depsGet (L.foldl (fun m ip => depsAddPkg m ip.1 ip.2) m) n := by
  induction L with
  | nil => intro m n e h; exact h
  | cons ip rest ih =>
    intro m n e h
    exact ih _ (depsAddPkg_mono ip.1 ip.2 m h)

theorem foldl_depsAddPkg_adds (L : List (Nat × Pkg)) :
    ∀ (m : List (String × List (Nat × String))) {i : Nat} {P : Pkg}
      {n kind : String},
    (i, P) ∈ L → depOfKind P n kind →
    (i, kind) ∈ depsGet (L.foldl (fun m ip => depsAddPkg m ip.1 ip.2) m) n := by
  induction L with
  | nil => intro m i P n kind h _; cases h
  | cons ip rest ih =>
    intro m i P n kind h hdep
    rcases List.mem_cons.mp h with h' | h'
    · show (i, kind) ∈ depsGet (rest.foldl _ (depsAddPkg m ip.1 ip.2)) n
      rw [← h']
      exact foldl_depsAddPkg_mono rest _ (depsAddPkg_adds i P m hdep)
    · exact ih _ h' hdep

theorem build_deps_complete {sources : List SourceM} {i : Nat} {P : Pkg}
    (hP : (i, P) ∈ (all_packages sources).enum) {n kind : String}
    (hdep : depOfKind P n kind) :
    (i, kind) ∈ depsGet (build_deps sources) n :=
  foldl_depsAddPkg_adds _ [] hP hdep

theorem mem_foldl_append_acc {β : Type} (g : β → List (Nat × String)) :
    ∀ (l : List β) (acc : List (Nat × String)) {e : Nat × String}, e ∈ acc →
      e ∈ l.foldl (fun acc x => acc ++ g x) acc := by
  intro l
  induction l with
  | nil => intro acc e h; exact h
  | cons x rest ih =>
    intro acc e h
    exact ih _ (List.mem_append.mpr (Or.inl h))

theorem mem_foldl_append_of_mem {β : Type} (g : β → List (Nat × String)) :
    ∀ (l : List β) (acc : List (Nat × String)) {x : β} {e : Nat × String},
      x ∈ l → e ∈ g x → e ∈ l.foldl (fun acc x => acc ++ g x) acc := by
  intro l
  induction l with
  | nil => intro acc x e h _; cases h
  | cons y rest ih =>
    intro acc x e h he
    rcases List.mem_cons.mp h with h' | h'
    · subst h'
      exact mem_foldl_append_acc g rest _ (List.mem_append.mpr (Or.inr he))
    · exact ih _ h' he

theorem cmpS_swap (a b : String) : cmpS b a = -cmpS a b :=
  cmpL_swap a.data b.data

theorem cmpS_range (a b : String) :
    cmpS a b = -1 ∨ cmpS a b = 0 ∨ cmpS a b = 1 :=
  cmpL_range a.data b.data

theorem cmpL_eq_zero_iff : ∀ (a b : List Char), cmpL a b = 0 ↔ a = b := by
  intro a
  induction a with
  | nil => intro b; cases b <;> simp [cmpL]
  | cons x xs ih =>
    intro b
    cases b with
    | nil => simp [cmpL]
    | cons y ys =>
      rw [cmpL]
      by_cases h1 : x.toNat > y.toNat
      · rw [if_pos h1]
        constructor
        · intro h; exact absurd h (by decide)
        · intro h
          injection h with h1' _
          rw [h1'] at h1
          exact absurd h1 (lt_irrefl _)
      · rw [if_neg h1]
        by_cases h2 : x.toNat < y.toNat
        · rw [if_pos h2]
          constructor
          · intro h; exact absurd h (by decide)
          · intro h
            injection h with h1' _
            rw [h1'] at h2
            exact absurd h2 (lt_irrefl _)
        · rw [if_neg h2]
          have hxy : x = y := char_toNat_inj (by omega)
          subst hxy
          rw [ih ys]
          constructor
          · intro h; rw [h]
          · intro h; injection h

theorem cmpL_neg_trans : ∀ {a b c : List Char},
    cmpL a b = -1 → cmpL b c = -1 → cmpL a c = -1 := by
  intro a
  induction a with
  | nil =>
    intro b c h1 h2
    cases b with
    | nil => exact h2
    | cons y ys =>
      cases c with
      | nil => exact absurd h2 (by simp [cmpL])
      | cons z zs => simp [cmpL]
  | cons x xs ih =>
    intro b c h1 h2
    cases b with
    | nil => exact absurd h1 (by simp [cmpL])
    | cons y ys =>
      cases c with
      | nil => exact absurd h2 (by simp [cmpL])
      | cons z zs =>
        rw [cmpL] at h1 h2 ⊢
        by_cases hxy : x.toNat > y.toNat
        · rw [if_pos hxy] at h1
          exact absurd h1 (by decide)
        · rw [if_neg hxy] at h1
          by_cases hyz : y.toNat > z.toNat
          · rw [if_pos hyz] at h2
            exact absurd h2 (by decide)
          · rw [if_neg hyz] at h2
            by_cases hxy2 : x.toNat < y.toNat
            · have hyz2 : y.toNat ≤ z.toNat := by omega
              have : x.toNat < z.toNat := by omega
              rw [if_neg (by omega), if_pos this]
            · have hxy3 : x.toNat = y.toNat := by omega
              rw [if_neg hxy2] at h1
              by_cases hyz2 : y.toNat < z.toNat
              · have : x.toNat < z.toNat := by omega
                rw [if_neg (by omega), if_pos this]
              · have hyz3 : y.toNat = z.toNat := by omega
                rw [if_neg hyz2] at h2
                have hxz : ¬x.toNat > z.toNat := by omega
                have hxz2 : ¬x.toNat < z.toNat := by omega
                rw [if_neg hxz, if_neg hxz2]
                exact ih h1 h2

theorem cmpS_trip (x y z : String) :
    (cmpS x y = -1 ∨ cmpS x y = 0 ∨ cmpS x y = 1) ∧
    (cmpS y z = -1 ∨ cmpS y z = 0 ∨ cmpS y z = 1) ∧
    (cmpS x y = 0 → cmpS x z = cmpS y z) ∧
    (cmpS y z = 0 → cmpS x z = cmpS x y) ∧
    (cmpS x y = -1 → cmpS y z = -1 → cmpS x z = -1) := by
  refine ⟨cmpS_range x y, cmpS_range y z, ?_, ?_, ?_⟩
  · intro h
    have : x = y := string_data_inj ((cmpL_eq_zero_iff _ _).mp h)
    rw [this]
  · intro h
    have : y = z := string_data_inj ((cmpL_eq_zero_iff _ _).mp h)
    rw [← this]
  · exact cmpL_neg_trans

/-- Per-component soundness of a lexicographic comparison triple. -/
def TripOK : List Int → List Int → List Int → Prop
  | [], [], [] => True
  | c1 :: t1, c2 :: t2, c3 :: t3 =>
    (c1 = -1 ∨ c1 = 0 ∨ c1 = 1) ∧ (c2 = -1 ∨ c2 = 0 ∨ c2 = 1) ∧
    (c1 = 0 → c3 = c2) ∧ (c2 = 0 → c3 = c1) ∧
    (c1 = -1 → c2 = -1 → c3 = -1) ∧ TripOK t1 t2 t3
  | _, _, _ => False

theorem lexCmp_trans_of_tripOK : ∀ {l1 l2 l3 : List Int}, TripOK l1 l2 l3 →
    lexCmp l1 ≠ 1 → lexCmp l2 ≠ 1 → lexCmp l3 ≠ 1 := by
  intro l1
  induction l1 with
  | nil =>
    intro l2 l3 hok h1 h2
    cases l2 with
    | nil =>
      cases l3 with
      | nil => exact h1
      | cons c3 t3 => exact absurd hok (by simp [TripOK])
    | cons c2 t2 => exact absurd hok (by simp [TripOK])
  | cons c1 t1 ih =>
    intro l2 l3 hok h1 h2
    cases l2 with
    | nil => exact absurd hok (by simp [TripOK])
    | cons c2 t2 =>
      cases l3 with
      | nil => exact absurd hok (by simp [TripOK])
      | cons c3 t3 =>
        obtain ⟨hr1, hr2, h10, h20, hneg, htail⟩ := hok
        rw [lexCmp] at h1 h2 ⊢
        by_cases hc1 : c1 = 0
        · have hc3 : c3 = c2 := h10 hc1
          rw [if_neg (by simp [hc1])] at h1
          by_cases hc2 : c2 = 0
          · rw [if_neg (by simp [hc2])] at h2
            rw [if_neg (by simp [hc3, hc2])]
            exact ih htail h1 h2
          · rw [if_pos (by simpa using hc2)] at h2
            have hc2' : c2 = -1 := by
              rcases hr2 with h | h | h
              · exact h
              · exact absurd h hc2
              · exact absurd h h2
            rw [if_pos (by simp [hc3, hc2'])]
            rw [hc3, hc2']
            decide
        · rw [if_pos (by simpa using hc1)] at h1
          have hc1' : c1 = -1 := by
            rcases hr1 with h | h | h
            · exact h
            · exact absurd h hc1
            · exact absurd h h1
          by_cases hc2 : c2 = 0
          · have hc3 : c3 = c1 := h20 hc2
            rw [if_pos (by simp [hc3, hc1'])]
            rw [hc3, hc1']
            decide
          · rw [if_pos (by simpa using hc2)] at h2
            have hc2' : c2 = -1 := by
              rcases hr2 with h | h | h
              · exact h
              · exact absurd h hc2
              · exact absurd h h2
            have hc3 : c3 = -1 := hneg hc1' hc2'
            rw [if_pos (by simp [hc3])]
            rw [hc3]
            decide

theorem tripOK_rdKeyCmps (sources : List SourceM) (a b c : Nat × String) :
    TripOK (rdKeyCmps sources a b) (rdKeyCmps sources b c)
      (rdKeyCmps sources a c) := by
  obtain ⟨a1, a2, a3, a4, a5⟩ :=
    cmpS_trip (pkgAt sources a.1).repo (pkgAt sources b.1).repo (pkgAt sources c.1).repo
  obtain ⟨b1, b2, b3, b4, b5⟩ :=
    cmpS_trip (pkgAt sources a.1).repo_variant (pkgAt sources b.1).repo_variant
      (pkgAt sources c.1).repo_variant
  obtain ⟨c1, c2, c3, c4, c5⟩ :=
    cmpS_trip (pkgAt sources a.1).name (pkgAt sources b.1).name (pkgAt sources c.1).name
  obtain ⟨d1, d2, d3, d4, d5⟩ :=
    cmpS_trip (pkgAt sources a.1).arch (pkgAt sources b.1).arch (pkgAt sources c.1).arch
  obtain ⟨e1, e2, e3, e4, e5⟩ :=
    cmpS_trip (pkgAt sources a.1).fileurl (pkgAt sources b.1).fileurl
      (pkgAt sources c.1).fileurl
  obtain ⟨f1, f2, f3, f4, f5⟩ := cmpS_trip a.2 b.2 c.2
  exact ⟨a1, a2, a3, a4, a5, b1, b2, b3, b4, b5, c1, c2, c3, c4, c5,
    d1, d2, d3, d4, d5, e1, e2, e3, e4, e5, f1, f2, f3, f4, f5, trivial⟩

theorem lexCmp_map_neg : ∀ (l : List Int),
    lexCmp (l.map (fun c => -c)) = -lexCmp l := by
  intro l
  induction l with
  | nil => rfl
  | cons c rest ih =>
    rw [List.map_cons, lexCmp, lexCmp]
    by_cases hc : c = 0
    · rw [if_neg (by simp [hc]), if_neg (by simp [hc])]
      exact ih
    · rw [if_pos (by simpa using hc), if_pos (by simpa using hc)]

theorem rdKeyCmps_swap (sources : List SourceM) (a b : Nat × String) :
    rdKeyCmps sources b a = (rdKeyCmps sources a b).map (fun c => -c) := by
  unfold rdKeyCmps
  rw [List.map_cons, List.map_cons, List.map_cons, List.map_cons,
    List.map_cons, List.map_cons, List.map_nil]
  rw [cmpS_swap (pkgAt sources a.1).repo,
    cmpS_swap (pkgAt sources a.1).repo_variant,
    cmpS_swap (pkgAt sources a.1).name,
    cmpS_swap (pkgAt sources a.1).arch,
    cmpS_swap (pkgAt sources a.1).fileurl,
    cmpS_swap a.2]

theorem rdCmp_swap (sources : List SourceM) (a b : Nat × String) :
    rdCmp sources b a = -rdCmp sources a b := by
  rw [rdCmp, rdCmp, rdKeyCmps_swap, lexCmp_map_neg]

theorem rdLe_total (sources : List SourceM) (a b : Nat × String) :
    rdLe sources a b = true ∨ rdLe sources b a = true := by
  by_cases h : rdCmp sources a b = 1
  · right
    have : rdCmp sources b a = -1 := by rw [rdCmp_swap, h]
    simp [rdLe, this]
  · left
    simp [rdLe, h]

theorem rdLe_trans {sources : List SourceM} {a b c : Nat × String}
    (h1 : rdLe sources a b = true) (h2 : rdLe sources b c = true) :
    rdLe sources a c = true := by
  have h1' : rdCmp sources a b ≠ 1 := by simpa [rdLe] using h1
  have h2' : rdCmp sources b c ≠ 1 := by simpa [rdLe] using h2
  have := lexCmp_trans_of_tripOK (tripOK_rdKeyCmps sources a b c) h1' h2'
  simpa [rdLe, rdCmp] using this

theorem pkgAt_eq {sources : List SourceM} {i : Nat} {P : Pkg}
    (hP : (all_packages sources).get? i = some P) : pkgAt sources i = P := by
  unfold pkgAt
  rw [hP]
  rfl

theorem rdepends_of_complete {sources : List SourceM} {i : Nat} {P : Pkg}
    (hP : (all_packages sources).get? i = some P) {N kind : String}
    (hdep : depOfKind P N kind) {T : Pkg}
    (hname : T.name = N ∨ N ∈ T.provides.map (fun nr => nr.1))
    (hvar : T.repo_variant ≠ "" →
      P.repo_variant = T.repo_variant ∨ P.repo_variant = "") :
    (i, kind) ∈ rdepends_of sources T := by
  unfold rdepends_of
  have hidx : (i, kind) ∈ depsGet (build_deps sources) N :=
    build_deps_complete (List.mk_mem_enum_iff_get?.mpr hP) hdep
  have hrd : (i, kind) ∈ T.provides.foldl
      (fun acc prov => acc ++ depsGet (build_deps sources) prov.1)
      (depsGet (build_deps sources) T.name) := by
    rcases hname with h | h
    · rw [← h] at hidx
      exact mem_foldl_append_acc _ _ _ hidx
    · rcases List.mem_map.mp h with ⟨nr, hnr, h1⟩
      rw [← h1] at hidx
      exact mem_foldl_append_of_mem _ _ _ hnr hidx
  have hsorted : (i, kind) ∈ sortByLe (rdLe sources)
      (T.provides.foldl
        (fun acc prov => acc ++ depsGet (build_deps sources) prov.1)
        (depsGet (build_deps sources) T.name)) :=
    (sortByLe_perm _ _).mem_iff.mpr hrd
  dsimp only
  split
  · rename_i hv
    refine List.mem_filter.mpr ⟨hsorted, ?_⟩
    rw [pkgAt_eq hP]
    rcases hvar hv with h' | h' <;> simp [h']
  · exact hsorted

theorem rdepends_of_sorted (sources : List SourceM) (p : Pkg) :
    (rdepends_of sources p).Pairwise (fun a b => rdLe sources a b = true) := by
  unfold rdepends_of
  dsimp only
  split
  · exact (sortByLe_pairwise _ (rdLe_total sources)
      (fun h1 h2 => rdLe_trans h1 h2) _).filter _
  · exact sortByLe_pairwise _ (rdLe_total sources)
      (fun h1 h2 => rdLe_trans h1 h2) _

/-- C7 (amended): after `fill_rdepends`, for every package `P` that depends
on name `N` with kind `K` (runtime `""`, build `"make"`, optional
`"optional"`, check `"check"`), the entry `(P, K)` appears in the rdepends
list of every package whose own name or provides alias equals `N` — except
that when the target has a nonempty `repo_variant`, entries whose dependent
has a different nonempty `repo_variant` are dropped; each resulting list is
sorted by (dependent package key, kind).  The lists are concatenations of
the per-name index entries and are NOT deduplicated (see the
counterexample). -/
theorem fill_rdepends_roundtrip :
    (∀ (sources : List SourceM) (i : Nat) (P : Pkg),
      (all_packages sources).get? i = some P →
      ∀ (N kind : String), depOfKind P N kind →
      ∀ T : Pkg, T ∈ all_packages sources →
      (T.name = N ∨ N ∈ T.provides.map (fun nr => nr.1)) →
      (T.repo_variant ≠ "" →
        P.repo_variant = T.repo_variant ∨ P.repo_variant = "") →
      (i, kind) ∈ rdepends_of sources T) ∧
    (∀ (sources : List SourceM) (T : Pkg),
      (rdepends_of sources T).Pairwise (fun a b => rdLe sources a b = true)) :=
  ⟨fun _ _ _ hP _ _ hdep _ _ hname hvar =>
      rdepends_of_complete hP hdep hname hvar,
    rdepends_of_sorted⟩

/-- A package depending on two names satisfied by one other package. -/
def rdepCexA : Pkg :=
  { (default : Pkg) with name := "a", depends := [("n1", ""), ("n2", "")] }

/-- A package reached once via its name and once via a provides alias. -/
def rdepCexB : Pkg :=
  { (default : Pkg) with name := "n1", provides := [("n2", "")] }

/-- The one source holding both packages. -/
def rdepCexSrc : SourceM where
  name := "s"
  desc := ""
  url := ""
  packager := ""
  repo := ""
  repo_variant := ""
  packages := [(rdepCexA.key, rdepCexA), (rdepCexB.key, rdepCexB)]

/-- A one-source universe containing both packages. -/
def rdepCexSources : List SourceM := [rdepCexSrc]

/-- C7 (counterexample): the rdepends list is not deduplicated: package
`a` depends on both `n1` and `n2`, package `n1` provides `n2`, and the
resulting list contains the entry for `a` twice. -/
theorem fill_rdepends_not_dedup :
    rdepends_of rdepCexSources rdepCexB = [(0, ""), (0, "")] ∧
    ¬(rdepends_of rdepCexSources rdepCexB).Nodup :=
  ⟨by decide, by decide⟩

/-- C7 (witness): the amended statement evaluated on the concrete
two-package universe. -/
theorem fill_rdepends_roundtrip_witness :
    (0, "") ∈ rdepends_of rdepCexSources rdepCexB ∧
    (rdepends_of rdepCexSources rdepCexB).Pairwise
      (fun a b => rdLe rdepCexSources a b = true) :=
  ⟨fill_rdepends_roundtrip.1 rdepCexSources 0 rdepCexA (by decide)
      "n2" "" (Or.inl ⟨rfl, by decide⟩) rdepCexB (by decide)
      (Or.inr (by decide)) (fun h => absurd rfl h),
    fill_rdepends_roundtrip.2 rdepCexSources rdepCexB⟩

/-! ## C9/C10: key uniqueness and nonemptiness through parsing and merging -/

theorem from_desc_packages (d : Desc) (repo rv : String) :
    (SourceM.from_desc d repo rv).packages = [] := rfl

theorem lookupA_mem {m : List (String × SourceM)} {k : String} {s : SourceM}
    (h : lookupA m k = some s) : (k, s) ∈ m := by
  unfold lookupA at h
  rcases Option.map_eq_some'.mp h with ⟨x, hx, hxs⟩
  have h3 : x.1 = k := by
    have h1 := List.find?_some hx
    simpa using h1
  have h2 := List.mem_of_find?_eq_some hx
  rw [← h3, ← hxs]
  exact h2

theorem mem_replaceA {m : List (String × SourceM)} {k : String} {v : SourceM}
    {nv : String × SourceM} (h : nv ∈ replaceA m k v) :
    nv = (k, v) ∨ nv ∈ m := by
  unfold replaceA at h
  rcases List.mem_map.mp h with ⟨x, hx, hxe⟩
  by_cases hk : x.1 = k
  · rw [if_pos hk] at hxe
    exact Or.inl hxe.symm
  · rw [if_neg hk] at hxe
    exact Or.inr (hxe ▸ hx)

theorem add_desc_some {s s1 : SourceM} {d : Desc} {burl : String}
    (h : s.add_desc d burl = some s1) :
    (Pkg.from_desc d s.name burl s.repo s.repo_variant).key ∉
        s.packages.map Prod.fst ∧
    s1.packages = s.packages ++
      [((Pkg.from_desc d s.name burl s.repo s.repo_variant).key,
        Pkg.from_desc d s.name burl s.repo s.repo_variant)] := by
  unfold SourceM.add_desc at h
  dsimp only at h
  split at h
  · exact absurd h (by simp)
  · rename_i hc
    refine ⟨?_, ?_⟩
    · intro hmem
      apply hc
      rcases List.mem_map.mp hmem with ⟨kp, hkp, hke⟩
      exact List.any_eq_true.mpr ⟨kp, hkp, by simp [hke]⟩
    · rw [← Option.some.inj h]

theorem add_desc_dup_none (s : SourceM) (d : Desc) (burl : String)
    (h : (Pkg.from_desc d s.name burl s.repo s.repo_variant).key ∈
      s.packages.map Prod.fst) :
    s.add_desc d burl = none := by
  have hc : s.packages.any (fun kp =>
      kp.1 = (Pkg.from_desc d s.name burl s.repo s.repo_variant).key) = true := by
    rcases List.mem_map.mp h with ⟨kp, hkp, hke⟩
    exact List.any_eq_true.mpr ⟨kp, hkp, by simp [hke]⟩
  unfold SourceM.add_desc
  simp only [hc, if_true]

theorem parse_repo_descs_cons (repo rv burl : String) (d : Desc)
    (rest : List Desc) (acc : List (String × SourceM)) :
    parse_repo_descs repo rv burl (d :: rest) acc =
      match lookupA acc (SourceM.from_desc d repo rv).name with
      | some s0 =>
        match s0.add_desc d burl with
        | none => none
        | some s1 => parse_repo_descs repo rv burl rest
            (replaceA acc (SourceM.from_desc d repo rv).name s1)
      | none =>
        match (SourceM.from_desc d repo rv).add_desc d burl with
        | none => none
        | some s1 => parse_repo_descs repo rv burl rest
            (acc ++ [((SourceM.from_desc d repo rv).name, s1)]) := rfl

/-- Any property established by every successful `add_desc` and preserved
by `add_desc` holds of every Source a successful `parse_repo` run
returns. -/
theorem parse_repo_descs_inv (P : SourceM → Prop) (repo rv burl : String)
    (hstep : ∀ s s1 d, P s → s.add_desc d burl = some s1 → P s1)
    (hnew : ∀ d s1, (SourceM.from_desc d repo rv).add_desc d burl = some s1 → P s1) :
    ∀ (descs : List Desc) (acc res : List (String × SourceM)),
      (∀ nv ∈ acc, P nv.2) →
      parse_repo_descs repo rv burl descs acc = some res →
      ∀ nv ∈ res, P nv.2 := by
  intro descs
  induction descs with
  | nil =>
    intro acc res hacc h
    rw [← Option.some.inj h]
    exact hacc
  | cons d rest ih =>
    intro acc res hacc h
    rw [parse_repo_descs_cons] at h
    split at h
    · rename_i s0 hl
      split at h
      · exact absurd h (by simp)
      · rename_i s1 hadd
        refine ih _ res ?_ h
        intro nv hnv
        rcases mem_replaceA hnv with heq | hmem
        · rw [heq]
          exact hstep s0 s1 d (hacc _ (lookupA_mem hl)) hadd
        · exact hacc nv hmem
    · rename_i hl
      split at h
      · exact absurd h (by simp)
      · rename_i s1 hadd
        refine ih _ res ?_ h
        intro nv hnv
        rcases List.mem_append.mp hnv with hmem | heq
        · exact hacc nv hmem
        · rw [List.mem_singleton.mp heq]
          exact hnew d s1 hadd

/-- C9 (amended): within one Source accumulation a duplicate Package key
is fatal: `add_desc` of a Package whose key is already in the map fails
(the `assert`), and consequently every Source a successful `parse_repo`
run returns has pairwise-distinct package keys.  (The cross-repository
merge of `update_source`, by contrast, does NOT treat a duplicate key as
an error: see the counterexample.) -/
theorem package_key_unique_per_source :
    (∀ (s : SourceM) (d : Desc) (burl : String),
      (Pkg.from_desc d s.name burl s.repo s.repo_variant).key ∈
        s.packages.map Prod.fst →
      s.add_desc d burl = none) ∧
    (∀ (repo rv burl : String) (descs : List Desc)
      (acc res : List (String × SourceM)),
      (∀ nv ∈ acc, (nv.2.packages.map Prod.fst).Nodup) →
      parse_repo_descs repo rv burl descs acc = some res →
      ∀ nv ∈ res, (nv.2.packages.map Prod.fst).Nodup) := by
  refine ⟨add_desc_dup_none, ?_⟩
  intro repo rv burl
  refine parse_repo_descs_inv
    (fun s => (s.packages.map Prod.fst).Nodup) repo rv burl ?_ ?_
  · intro s s1 d hs hadd
    rcases add_desc_some hadd with ⟨hnot, hpkgs⟩
    rw [hpkgs, List.map_append, List.map_cons, List.map_nil, List.nodup_append]
    refine ⟨hs, List.nodup_singleton _, ?_⟩
    intro a ha hb
    rw [List.mem_singleton.mp hb] at ha
    exact hnot ha
  · intro d s1 hadd
    rcases add_desc_some hadd with ⟨_, hpkgs⟩
    rw [hpkgs, from_desc_packages, List.nil_append]
    exact List.nodup_singleton _

/-- Two packages sharing a key but differing in version. -/
def p9v1 : Pkg := { (default : Pkg) with name := "p", version := "1" }

/-- Same key as `p9v1`, newer version. -/
def p9v2 : Pkg := { (default : Pkg) with name := "p", version := "2" }

/-- Source of one repository holding `p9v1`. -/
def m9a : SourceM where
  name := "s"
  desc := ""
  url := ""
  packager := ""
  repo := ""
  repo_variant := ""
  packages := [(p9v1.key, p9v1)]

/-- Source of another repository holding `p9v2` under the same key. -/
def m9b : SourceM where
  name := "s"
  desc := ""
  url := ""
  packager := ""
  repo := ""
  repo_variant := ""
  packages := [(p9v2.key, p9v2)]

/-- C9 (counterexample): merging the per-repository source maps does NOT
treat a duplicate Package key as an error: `packages.update` silently
overwrites, so two distinct packages with the same key in different
repository maps merge into one entry holding the later package. -/
theorem update_source_overwrites_duplicate_key :
    p9v1.key = p9v2.key ∧ p9v1 ≠ p9v2 ∧
    merge_sources [[("s", m9a)], [("s", m9b)]] =
      [("s", { m9a with packages := [(p9v1.key, p9v2)] })] :=
  ⟨rfl, by decide, by decide⟩

/-- A minimal description block. -/
def w9desc : Desc where
  builddate := "5"
  csize := "1"
  filename := "p.pkg"
  isize := "1"
  md5sum := "m"
  name := "p"
  sha256sum := "s"
  arch := "x"
  version := "1.0"
  packager := "pk"

/-- A source already holding the package `w9desc` describes. -/
def w9src : SourceM where
  name := "p"
  desc := ""
  url := ""
  packager := "pk"
  repo := "r"
  repo_variant := ""
  packages := [((Pkg.from_desc w9desc "p" "b" "r" "").key,
    Pkg.from_desc w9desc "p" "b" "r" "")]

/-- The parse result of a one-desc repository. -/
def w9res : List (String × SourceM) :=
  (parse_repo_descs "r" "" "b" [w9desc] []).getD []

/-- C9 (witness): the amended statement evaluated concretely: re-adding a
package whose key is present fails, and a successful one-desc parse yields
Nodup keys. -/
theorem package_key_unique_per_source_witness :
    w9src.add_desc w9desc "b" = none ∧
    ∀ nv ∈ w9res, (nv.2.packages.map Prod.fst).Nodup :=
  ⟨package_key_unique_per_source.1 w9src w9desc "b" (by decide),
    package_key_unique_per_source.2 "r" "" "b" [w9desc] [] w9res
      (fun nv h => absurd h (List.not_mem_nil nv)) (by decide)⟩

theorem foldl_dedup_ne_nil (xs : List String) :
    ∀ acc, acc ≠ [] →
      xs.foldl (fun acc x => if x ∈ acc then acc else acc ++ [x]) acc ≠ [] := by
  induction xs with
  | nil => intro acc h; exact h
  | cons x rest ih =>
    intro acc h
    rw [List.foldl_cons]
    by_cases hx : x ∈ acc
    · rw [if_pos hx]
      exact ih acc h
    · rw [if_neg hx]
      exact ih (acc ++ [x]) (by simp)

theorem dedupKeepFirst_ne_nil {l : List String} (h : l ≠ []) :
    dedupKeepFirst l ≠ [] := by
  unfold dedupKeepFirst
  cases l with
  | nil => exact absurd rfl h
  | cons x rest =>
    rw [List.foldl_cons]
    exact foldl_dedup_ne_nil rest _ (by simp)

theorem sortByLe_ne_nil {α : Type} (le : α → α → Bool) {l : List α}
    (h : l ≠ []) : sortByLe le l ≠ [] := by
  intro hn
  apply h
  have hp := sortByLe_perm le l
  rw [hn] at hp
  exact (List.Perm.nil_eq hp).symm

theorem head_isSome_of_ne_nil {α : Type} {l : List α} (h : l ≠ []) :
    l.head?.isSome := by
  cases l with
  | nil => exact absurd rfl h
  | cons a t => rfl

theorem getLast_isSome_of_ne_nil {α : Type} {l : List α} (h : l ≠ []) :
    l.getLast?.isSome := by
  induction l with
  | nil => exact absurd rfl h
  | cons a t iht =>
    cases t with
    | nil => rfl
    | cons b u =>
      rw [List.getLast?_cons_cons]
      exact iht (by simp)

theorem map_ne_nil {α β : Type} (f : α → β) {l : List α} (h : l ≠ []) :
    l.map f ≠ [] := by
  cases l with
  | nil => exact absurd rfl h
  | cons a t => simp

theorem dictUpdateP_ne_nil {old : List (PkgKey × Pkg)}
    (new : List (PkgKey × Pkg)) (h : old ≠ []) :
    dictUpdateP old new ≠ [] := by
  unfold dictUpdateP
  induction new generalizing old with
  | nil => exact h
  | cons kv rest ih =>
    rw [List.foldl_cons]
    by_cases hk : old.any (fun x => x.1 = kv.1)
    · rw [if_pos hk]
      exact ih (map_ne_nil _ h)
    · rw [if_neg hk]
      exact ih (by simp)

theorem merge_sources_inner_inv (m : List (String × SourceM))
    (hm : ∀ nv ∈ m, nv.2.packages ≠ []) :
    ∀ f, (∀ nv ∈ f, nv.2.packages ≠ []) →
    ∀ nv ∈ m.foldl (fun f nv =>
      match lookupA f nv.1 with
      | some s0 =>
        replaceA f nv.1 { s0 with packages := dictUpdateP s0.packages nv.2.packages }
      | none => f ++ [nv]) f, nv.2.packages ≠ [] := by
  induction m with
  | nil => intro f hf nv hnv; exact hf nv hnv
  | cons x rest ih =>
    intro f hf nv hnv
    rw [List.foldl_cons] at hnv
    refine ih (fun a ha => hm a (List.mem_cons_of_mem x ha)) _ ?_ nv hnv
    intro a ha
    rcases hl : lookupA f x.1 with _ | s0
    · rw [hl] at ha
      dsimp only at ha
      rcases List.mem_append.mp ha with h1 | h2
      · exact hf a h1
      · rw [List.mem_singleton.mp h2]
        exact hm x (List.mem_cons_self x rest)
    · rw [hl] at ha
      dsimp only at ha
      rcases mem_replaceA ha with heq | hmem
      · rw [heq]
        exact dictUpdateP_ne_nil _ (hf _ (lookupA_mem hl))
      · exact hf a hmem

theorem merge_sources_fold_inv :
    ∀ (maps : List (List (String × SourceM))),
      (∀ m ∈ maps, ∀ nv ∈ m, nv.2.packages ≠ []) →
      ∀ f, (∀ nv ∈ f, nv.2.packages ≠ []) →
      ∀ nv ∈ maps.foldl (fun final m =>
        m.foldl (fun f nv =>
          match lookupA f nv.1 with
          | some s0 =>
            replaceA f nv.1 { s0 with packages := dictUpdateP s0.packages nv.2.packages }
          | none => f ++ [nv]) final) f, nv.2.packages ≠ [] := by
  intro maps
  induction maps with
  | nil => intro _ f hf nv hnv; exact hf nv hnv
  | cons m rest ih =>
    intro hmaps f hf nv hnv
    rw [List.foldl_cons] at hnv
    refine ih (fun a ha => hmaps a (List.mem_cons_of_mem m ha)) _ ?_ nv hnv
    exact merge_sources_inner_inv m (hmaps m (List.mem_cons_self m rest)) f hf

theorem merge_sources_inv (maps : List (List (String × SourceM)))
    (hmaps : ∀ m ∈ maps, ∀ nv ∈ m, nv.2.packages ≠ []) :
    ∀ nv ∈ merge_sources maps, nv.2.packages ≠ [] := by
  unfold merge_sources
  exact merge_sources_fold_inv maps hmaps []
    (fun nv h => absurd h (List.not_mem_nil nv))

/-- C10: every Source a successful `parse_repo` run returns, and every
Source published by `update_source`, owns at least one Package (a Source
is created only together with its first package's description block and
the merge only adds packages); on any such Source the derived
`Source.version` and `Source.date` are well-defined (the Python code would
raise `IndexError` exactly on an empty package map). -/
theorem source_never_empty :
    (∀ (repo rv burl : String) (descs : List Desc)
      (acc res : List (String × SourceM)),
      (∀ nv ∈ acc, nv.2.packages ≠ []) →
      parse_repo_descs repo rv burl descs acc = some res →
      ∀ nv ∈ res, nv.2.packages ≠ []) ∧
    (∀ maps : List (List (String × SourceM)),
      (∀ m ∈ maps, ∀ nv ∈ m, nv.2.packages ≠ []) →
      ∀ s ∈ update_source_model maps, s.packages ≠ []) ∧
    (∀ s : SourceM, s.packages ≠ [] →
      (SourceM.version s).isSome ∧ (SourceM.date s).isSome) := by
  refine ⟨?_, ?_, ?_⟩
  · intro repo rv burl
    refine parse_repo_descs_inv (fun s => s.packages ≠ []) repo rv burl ?_ ?_
    · intro s s1 d _ hadd
      rcases add_desc_some hadd with ⟨_, hpkgs⟩
      rw [hpkgs]
      simp
    · intro d s1 hadd
      rcases add_desc_some hadd with ⟨_, hpkgs⟩
      rw [hpkgs]
      simp
  · intro maps hmaps s hs
    unfold update_source_model at hs
    rcases List.mem_map.mp hs with ⟨nv, hnv, hnvs⟩
    have hnv2 : nv ∈ merge_sources maps :=
      (sortByLe_perm _ _).mem_iff.mp hnv
    rw [← hnvs]
    exact merge_sources_inv maps hmaps nv hnv2
  · intro s hs
    constructor
    · unfold SourceM.version
      exact head_isSome_of_ne_nil
        (sortByLe_ne_nil _ (dedupKeepFirst_ne_nil (map_ne_nil _ hs)))
    · unfold SourceM.date
      exact getLast_isSome_of_ne_nil (sortByLe_ne_nil _ (map_ne_nil _ hs))

/-- The parse result used to instantiate C10 concretely. -/
def w10res : List (String × SourceM) :=
  (parse_repo_descs "r" "" "b" [w9desc] []).getD []

/-- C10 (witness): the statement evaluated on a one-desc repository and a
one-package source. -/
theorem source_never_empty_witness :
    (∀ nv ∈ w10res, nv.2.packages ≠ []) ∧
    (∀ s ∈ update_source_model [[("s", m9a)]], s.packages ≠ []) ∧
    ((SourceM.version m9a).isSome ∧ (SourceM.date m9a).isSome) :=
  ⟨source_never_empty.1 "r" "" "b" [w9desc] [] w10res
      (fun nv h => absurd h (List.not_mem_nil nv)) (by decide),
    source_never_empty.2.1 [[("s", m9a)]] (by
      intro m hm nv hnv
      rw [List.mem_singleton.mp hm] at hnv
      rw [List.mem_singleton.mp hnv]
      decide),
    source_never_empty.2.2 m9a (by decide)⟩

/-! ## C3/C4: the refresh cycle of `update_thread` (src/main.py lines 1385-1403)

`AppState` guards each field behind a property setter that also refreshes
the etag (`_update_etag`); `update_thread` runs the five feed updates in
sequence inside one `try`, and each feed update assigns its state field as
its last step.  The etag (a fresh `uuid4` per commit) is modelled as a
counter; the payloads fetched over the network are opaque inputs, `none`
standing for a feed whose fetch or parse raises. -/

structure AppStateM where
  etag : Nat
  sources : List SourceM
  sourceinfos : List (String × String)
  arch_versions : List (String × (String × String × Nat))
  arch_mapping : List (String × String)
  cygwin_versions : List (String × String)
deriving DecidableEq, Repr, Inhabited

/-- `state.arch_mapping = ...` through the setter (commits and re-etags). -/
def AppStateM.set_arch_mapping (st : AppStateM) (v : List (String × String)) : AppStateM :=
  { st with arch_mapping := v, etag := st.etag + 1 }

/-- `state.cygwin_versions = ...` through the setter. -/
def AppStateM.set_cygwin_versions (st : AppStateM) (v : List (String × String)) : AppStateM :=
  { st with cygwin_versions := v, etag := st.etag + 1 }

/-- `state.sources = ...` through the setter. -/
def AppStateM.set_sources (st : AppStateM) (v : List SourceM) : AppStateM :=
  { st with sources := v, etag := st.etag + 1 }

/-- `state.sourceinfos = ...` through the setter. -/
def AppStateM.set_sourceinfos (st : AppStateM) (v : List (String × String)) : AppStateM :=
  { st with sourceinfos := v, etag := st.etag + 1 }

/-- `state.arch_versions = ...` through the setter. -/
def AppStateM.set_arch_versions (st : AppStateM) (v : List (String × (String × String × Nat))) : AppStateM :=
  { st with arch_versions := v, etag := st.etag + 1 }

/-- The five feeds of one refresh cycle, in the order `update_thread`
runs them; `none` = that feed's fetch/parse raises. -/
structure CycleInputs where
  arch_mapping : Option (List (String × String))
  cygwin_versions : Option (List (String × String))
  source_maps : Option (List (List (String × SourceM)))
  sourceinfos : Option (List (String × String))
  arch_versions : Option (List (String × (String × String × Nat)))
deriving DecidableEq, Repr, Inhabited

/-- One refresh cycle: `update_arch_mapping(); update_cygwin_versions();
update_source(); update_sourceinfos(); update_versions()` inside one
`try` — an exception in feed k leaves the commits of feeds before k in
place and skips the rest. -/
def update_cycle (st : AppStateM) (inp : CycleInputs) : AppStateM :=
  match inp.arch_mapping with
  | none => st
  | some am =>
    let st1 := st.set_arch_mapping am
    match inp.cygwin_versions with
    | none => st1
    | some cv =>
      let st2 := st1.set_cygwin_versions cv
      match inp.source_maps with
      | none => st2
      | some maps =>
        let st3 := st2.set_sources (update_source_model maps)
        match inp.sourceinfos with
        | none => st3
        | some si =>
          let st4 := st3.set_sourceinfos si
          match inp.arch_versions with
          | none => st4
          | some av => st4.set_arch_versions av

/-- Every state an observer can read during one cycle: the initial state
and the state after each committed feed. -/
def cycle_states (st : AppStateM) (inp : CycleInputs) : List AppStateM :=
  st ::
    (match inp.arch_mapping with
     | none => []
     | some am =>
       let st1 := st.set_arch_mapping am
       st1 ::
         (match inp.cygwin_versions with
          | none => []
          | some cv =>
            let st2 := st1.set_cygwin_versions cv
            st2 ::
              (match inp.source_maps with
               | none => []
               | some maps =>
                 let st3 := st2.set_sources (update_source_model maps)
                 st3 ::
                   (match inp.sourceinfos with
                    | none => []
                    | some si =>
                      let st4 := st3.set_sourceinfos si
                      st4 ::
                        (match inp.arch_versions with
                         | none => []
                         | some av => [st4.set_arch_versions av])))))

/-- Two adjacent observable states differ by one re-etagged field commit. -/
def one_field_step (a b : AppStateM) : Prop :=
  b.etag = a.etag + 1 ∧
  (b = { a with arch_mapping := b.arch_mapping, etag := b.etag } ∨
   b = { a with cygwin_versions := b.cygwin_versions, etag := b.etag } ∨
   b = { a with sources := b.sources, etag := b.etag } ∨
   b = { a with sourceinfos := b.sourceinfos, etag := b.etag } ∨
   b = { a with arch_versions := b.arch_versions, etag := b.etag })

/-- C3 (amended): the failure boundary of a refresh cycle is a single
feed, not the whole cycle: a failure in the first feed leaves the state
entirely untouched, and a failure in any later feed leaves that feed's
field and all later fields at their previously published values — but the
feeds already committed in the same cycle keep their new values, so a
partial mutation of the published data IS observable (see the
counterexample). -/
theorem update_cycle_per_feed_boundary (st : AppStateM) (inp : CycleInputs) :
    (inp.arch_mapping = none → update_cycle st inp = st) ∧
    (inp.cygwin_versions = none →
      (update_cycle st inp).cygwin_versions = st.cygwin_versions ∧
      (update_cycle st inp).sources = st.sources ∧
      (update_cycle st inp).sourceinfos = st.sourceinfos ∧
      (update_cycle st inp).arch_versions = st.arch_versions) ∧
    (inp.source_maps = none →
      (update_cycle st inp).sources = st.sources ∧
      (update_cycle st inp).sourceinfos = st.sourceinfos ∧
      (update_cycle st inp).arch_versions = st.arch_versions) ∧
    (inp.sourceinfos = none →
      (update_cycle st inp).sourceinfos = st.sourceinfos ∧
      (update_cycle st inp).arch_versions = st.arch_versions) ∧
    (inp.arch_versions = none →
      (update_cycle st inp).arch_versions = st.arch_versions) := by
  obtain ⟨am, cv, sm, si, av⟩ := inp
  cases am <;> cases cv <;> cases sm <;> cases si <;> cases av <;>
    simp [update_cycle, AppStateM.set_arch_mapping, AppStateM.set_cygwin_versions,
      AppStateM.set_sources, AppStateM.set_sourceinfos, AppStateM.set_arch_versions]

/-- The state before a failing cycle, with empty published data. -/
def st3cex : AppStateM where
  etag := 0
  sources := []
  sourceinfos := []
  arch_versions := []
  arch_mapping := []
  cygwin_versions := []

/-- A cycle whose first feed succeeds and whose second feed raises. -/
def inp3cex : CycleInputs where
  arch_mapping := some [("clang", "clang-git")]
  cygwin_versions := none
  source_maps := none
  sourceinfos := none
  arch_versions := none

/-- C3 (counterexample): a failed cycle does NOT leave the previously
published state untouched: the arch-mapping feed committed before the
cygwin feed raised, so the published arch_mapping (and the etag) changed
while sources did not — a partial mutation is observable. -/
theorem update_cycle_partial_mutation :
    update_cycle st3cex inp3cex ≠ st3cex ∧
    (update_cycle st3cex inp3cex).arch_mapping ≠ st3cex.arch_mapping ∧
    (update_cycle st3cex inp3cex).sources = st3cex.sources :=
  ⟨by decide, by decide, by decide⟩

/-- C3 (witness): the amended per-feed boundary evaluated on the concrete
failing cycle: the failing feed and all later feeds keep their old
values. -/
theorem update_cycle_per_feed_boundary_witness :
    (update_cycle st3cex inp3cex).cygwin_versions = st3cex.cygwin_versions ∧
    (update_cycle st3cex inp3cex).sources = st3cex.sources ∧
    (update_cycle st3cex inp3cex).sourceinfos = st3cex.sourceinfos ∧
    (update_cycle st3cex inp3cex).arch_versions = st3cex.arch_versions :=
  (update_cycle_per_feed_boundary st3cex inp3cex).2.1 rfl

theorem one_field_step_am (a : AppStateM) (v : List (String × String)) :
    one_field_step a (a.set_arch_mapping v) := ⟨rfl, Or.inl rfl⟩

theorem one_field_step_cv (a : AppStateM) (v : List (String × String)) :
    one_field_step a (a.set_cygwin_versions v) := ⟨rfl, Or.inr (Or.inl rfl)⟩

theorem one_field_step_src (a : AppStateM) (v : List SourceM) :
    one_field_step a (a.set_sources v) := ⟨rfl, Or.inr (Or.inr (Or.inl rfl))⟩

theorem one_field_step_si (a : AppStateM) (v : List (String × String)) :
    one_field_step a (a.set_sourceinfos v) :=
  ⟨rfl, Or.inr (Or.inr (Or.inr (Or.inl rfl)))⟩

theorem one_field_step_av (a : AppStateM) (v : List (String × (String × String × Nat))) :
    one_field_step a (a.set_arch_versions v) :=
  ⟨rfl, Or.inr (Or.inr (Or.inr (Or.inr rfl)))⟩

/-- C4 (amended): a refresh cycle does not publish one atomic snapshot:
it publishes each feed as its own single-field commit (each bumping the
etag), so the observable states of a cycle form a chain of per-field
steps whose last element is the cycle result; a reader between two
commits can observe a mixed generation (see the counterexample). -/
theorem refresh_publishes_per_field (st : AppStateM) (inp : CycleInputs) :
    List.Chain' one_field_step (cycle_states st inp) ∧
    (cycle_states st inp).getLast? = some (update_cycle st inp) := by
  obtain ⟨am, cv, sm, si, av⟩ := inp
  cases am with
  | none => exact ⟨List.chain'_singleton st, rfl⟩
  | some a =>
    cases cv with
    | none => exact ⟨List.chain'_pair.mpr (one_field_step_am st a), rfl⟩
    | some c =>
      cases sm with
      | none =>
        exact ⟨List.chain'_cons.mpr ⟨one_field_step_am st a,
          List.chain'_pair.mpr (one_field_step_cv _ c)⟩, rfl⟩
      | some m =>
        cases si with
        | none =>
          exact ⟨List.chain'_cons.mpr ⟨one_field_step_am st a,
            List.chain'_cons.mpr ⟨one_field_step_cv _ c,
              List.chain'_pair.mpr (one_field_step_src _ _)⟩⟩, rfl⟩
        | some i =>
          cases av with
          | none =>
            exact ⟨List.chain'_cons.mpr ⟨one_field_step_am st a,
              List.chain'_cons.mpr ⟨one_field_step_cv _ c,
                List.chain'_cons.mpr ⟨one_field_step_src _ _,
                  List.chain'_pair.mpr (one_field_step_si _ i)⟩⟩⟩, rfl⟩
          | some v =>
            exact ⟨List.chain'_cons.mpr ⟨one_field_step_am st a,
              List.chain'_cons.mpr ⟨one_field_step_cv _ c,
                List.chain'_cons.mpr ⟨one_field_step_src _ _,
                  List.chain'_cons.mpr ⟨one_field_step_si _ i,
                    List.chain'_pair.mpr (one_field_step_av _ v)⟩⟩⟩⟩, rfl⟩

/-- A fresh package for the mixed-generation scenario. -/
def p4 : Pkg := { (default : Pkg) with name := "q", version := "3" }

/-- The source carrying `p4`. -/
def src4 : SourceM where
  name := "q"
  desc := ""
  url := ""
  packager := ""
  repo := ""
  repo_variant := ""
  packages := [(p4.key, p4)]

/-- The previously published state of the mixed-generation scenario. -/
def st4cex : AppStateM where
  etag := 0
  sources := []
  sourceinfos := []
  arch_versions := [("q", ("1", "u", 1))]
  arch_mapping := []
  cygwin_versions := []

/-- A fully successful cycle delivering a new source list and a new
arch-versions table. -/
def inp4cex : CycleInputs where
  arch_mapping := some []
  cygwin_versions := some []
  source_maps := some [[("q", src4)]]
  sourceinfos := some []
  arch_versions := some [("q", ("3", "u", 2))]

/-- C4 (counterexample): a reader that queries the state between the
sources commit and the arch_versions commit of one successful cycle sees
the NEW source list together with the OLD arch-versions table — a mixed
generation, refuting the atomic-snapshot claim. -/
theorem snapshot_not_atomic :
    (update_cycle st4cex inp4cex).sources ≠ st4cex.sources ∧
    (update_cycle st4cex inp4cex).arch_versions ≠ st4cex.arch_versions ∧
    ∃ mid ∈ cycle_states st4cex inp4cex,
      mid.sources = (update_cycle st4cex inp4cex).sources ∧
      mid.arch_versions = st4cex.arch_versions :=
  ⟨by decide, by decide, by decide⟩
